import Mathlib

/-!
Shallow embedding of the polarityorg/bots trading-bot repository.

Numbers: the TypeScript source computes with JS doubles; we embed them as
exact rationals (`ℚ`).  JS `Math.round` rounds half toward +∞, which on
rationals is `⌊x + 1/2⌋`.  Division by zero in JS yields NaN/Infinity and
makes every `≤` comparison false; `ℚ` division by zero yields 0, so theorems
whose truth could differ on a zero denominator carry an explicit nonzero
hypothesis.  `Math.random()` draws and external-call outcomes are passed in
as explicit parameters, making every embedded operation a pure function.
-/

/-- `OrderSide` from src/core/types.ts. -/
inductive OrderSide
  | bid
  | ask
deriving DecidableEq, Repr

/-- `OrderType` from src/core/types.ts. -/
inductive OrderType
  | limit
  | market
deriving DecidableEq, Repr

/-- `OrderStatus` from src/core/types.ts ("new" | "open" | "closed" | "canceled"). -/
inductive OrderStatus
  | new
  | opened
  | closedSt
  | canceledSt
deriving DecidableEq, Repr

/-- `Order` from src/core/types.ts.  `price`, `level`, `id`, `status` are the
optional fields of the interface. -/
structure Order where
  pair : String
  side : OrderSide
  type : OrderType
  price : Option ℚ
  size : ℚ
  timestamp : ℤ
  level : Option ℕ
  id : Option String
  status : Option OrderStatus
deriving DecidableEq, Repr

/-- `OrderMatch` from src/core/types.ts. -/
structure OrderMatch where
  existingOrder : Order
  newOrder : Order
  priceDeviation : ℚ
  sizeDeviation : ℚ
deriving Repr

/-- JS truthiness of an optional numeric field: `undefined` and `0` are falsy. -/
def truthyPrice : Option ℚ → Bool
  | none => false
  | some p => p ≠ 0

/-- JS `Math.abs` (defined through an explicit `if` so that concrete instances
reduce inside the kernel). -/
def jsAbs (x : ℚ) : ℚ := if x < 0 then -x else x

/-- JS `Math.round`: round half toward +∞, i.e. `⌊x + 1/2⌋`. -/
def jsRound (x : ℚ) : ℤ := Rat.floor (x + 1 / 2)

theorem jsAbs_eq_abs (x : ℚ) : jsAbs x = |x| := by
  unfold jsAbs
  rcases lt_or_le x 0 with h | h
  · rw [if_pos h, abs_of_neg h]
  · rw [if_neg (not_lt.2 h), abs_of_nonneg h]

theorem jsRound_eq_floor (x : ℚ) : jsRound x = ⌊x + 1 / 2⌋ := rfl

theorem jsAbs_nonneg (x : ℚ) : 0 ≤ jsAbs x := by
  rw [jsAbs_eq_abs]; exact abs_nonneg x

/-- `roundToDecimalPlaces` from src/core/utils.ts:
`Math.round(num * 10^dp) / 10^dp`. -/
def roundToDecimalPlaces (num : ℚ) (decimalPlaces : ℕ) : ℚ :=
  ((jsRound (num * 10 ^ decimalPlaces) : ℚ)) / 10 ^ decimalPlaces

/-- `applyVariance` from src/core/utils.ts: `baseValue * (1 + variance)` where
`variance = getRandomArbitrary(-f, f)`; the sampled variance is passed in. -/
def applyVariance (baseValue varianceDraw : ℚ) : ℚ :=
  baseValue * (1 + varianceDraw)

/-- `getRandomArbitrary(min, max)` from src/core/utils.ts:
`Math.random() * (max - min) + min`, with the raw `Math.random()` draw `r`
passed in. -/
def randomArbitrary (lo hi r : ℚ) : ℚ :=
  r * (hi - lo) + lo

/-- `compareOrders` from src/core/utils.ts.  The price deviation is 1 when
either price field is falsy (absent or 0); JS `existing.price && new_.price`
tests truthiness, not presence. -/
def compareOrders (existing new_ : Order) : OrderMatch :=
  let priceDeviation : ℚ :=
    if truthyPrice existing.price && truthyPrice new_.price then
      jsAbs ((existing.price.getD 0 - new_.price.getD 0) / existing.price.getD 0)
    else 1
  let sizeDeviation : ℚ := jsAbs ((existing.size - new_.size) / existing.size)
  { existingOrder := existing
    newOrder := new_
    priceDeviation := priceDeviation
    sizeDeviation := sizeDeviation }

/-- `Number.MAX_VALUE`, the initial value of `minDeviation` in
`findMatchingOrder`: the exact value of the largest finite IEEE-754 double,
`(2^53 - 1) * 2^971` (written as a literal so the kernel can compute with it;
see `jsMaxValue_eq`). -/
def jsMaxValue : ℚ := 179769313486231570814527423731704356798070567525844996598917476803157260780028538760589558632766878171540458953514382464234321326889464182768467546703537516986049910576551282076245490090389328944075868508455133942304583236903222948165808559332123348274797826204144723168738177180919299881250404026184124858368

theorem jsMaxValue_eq : jsMaxValue = (2 ^ 53 - 1) * 2 ^ 971 := by norm_num [jsMaxValue]

/-- Total deviation `priceDeviation + sizeDeviation` of a candidate against a
resting order. -/
def totalDev (existing cand : Order) : ℚ :=
  (compareOrders existing cand).priceDeviation + (compareOrders existing cand).sizeDeviation

/-- The two threshold checks of `findMatchingOrder`'s loop condition:
`match.priceDeviation <= maxPriceDeviation && match.sizeDeviation <= maxSizeDeviation`. -/
def devOk (existing cand : Order) (maxPriceDev maxSizeDev : ℚ) : Prop :=
  (compareOrders existing cand).priceDeviation ≤ maxPriceDev ∧
    (compareOrders existing cand).sizeDeviation ≤ maxSizeDev

instance (existing cand : Order) (maxPriceDev maxSizeDev : ℚ) :
    Decidable (devOk existing cand maxPriceDev maxSizeDev) := by
  unfold devOk; infer_instance

/-- The loop body of `findMatchingOrder` (src/core/utils.ts lines 91-106):
mutable `bestMatch` / `minDeviation` threaded through the candidate list;
an update fires when `totalDeviation < minDeviation` and both deviations are
within their thresholds. -/
def findBest (existingOrder : Order) (maxPriceDev maxSizeDev : ℚ) :
    List Order → Option Order → ℚ → Option Order
  | [], best, _ => best
  | newOrder :: rest, best, minDev =>
    if totalDev existingOrder newOrder < minDev ∧
        devOk existingOrder newOrder maxPriceDev maxSizeDev then
      findBest existingOrder maxPriceDev maxSizeDev rest (some newOrder)
        (totalDev existingOrder newOrder)
    else
      findBest existingOrder maxPriceDev maxSizeDev rest best minDev

/-- `findMatchingOrder` from src/core/utils.ts: filter to same side and type,
then scan for the eligible candidate minimising the deviation sum, starting
from `minDeviation = Number.MAX_VALUE`. -/
def findMatchingOrder (existingOrder : Order) (newOrders : List Order)
    (maxPriceDev maxSizeDev : ℚ) : Option Order :=
  let sameTypeOrders := newOrders.filter
    (fun order => decide (order.side = existingOrder.side ∧ order.type = existingOrder.type))
  findBest existingOrder maxPriceDev maxSizeDev sameTypeOrders none jsMaxValue

/-- Eligibility of a candidate in `findMatchingOrder`: same side, same type,
both deviations within their thresholds. -/
def eligibleMatch (existing cand : Order) (maxPriceDev maxSizeDev : ℚ) : Prop :=
  cand.side = existing.side ∧ cand.type = existing.type ∧
    (compareOrders existing cand).priceDeviation ≤ maxPriceDev ∧
    (compareOrders existing cand).sizeDeviation ≤ maxSizeDev

instance (existing cand : Order) (maxPriceDev maxSizeDev : ℚ) :
    Decidable (eligibleMatch existing cand maxPriceDev maxSizeDev) := by
  unfold eligibleMatch; infer_instance

theorem findBest_some_stays (e : Order) (P S : ℚ) :
    ∀ (l : List Order) (b0 : Order) (d : ℚ), findBest e P S l (some b0) d ≠ none := by
  intro l
  induction l with
  | nil => intro b0 d h; simp [findBest] at h
  | cons c rest ih =>
    intro b0 d h
    simp only [findBest] at h
    by_cases hc : totalDev e c < d ∧ devOk e c P S
    · rw [if_pos hc] at h; exact ih c (totalDev e c) h
    · rw [if_neg hc] at h; exact ih b0 d h

theorem findBest_none_iff (e : Order) (P S : ℚ) :
    ∀ (l : List Order) (d : ℚ),
      findBest e P S l none d = none ↔ ∀ c ∈ l, ¬(devOk e c P S ∧ totalDev e c < d) := by
  intro l
  induction l with
  | nil => intro d; simp [findBest]
  | cons c rest ih =>
    intro d
    simp only [findBest]
    by_cases hc : totalDev e c < d ∧ devOk e c P S
    · rw [if_pos hc]
      constructor
      · intro h; exact absurd h (findBest_some_stays e P S rest c (totalDev e c))
      · intro h; exact absurd ⟨hc.2, hc.1⟩ (h c (List.mem_cons_self c rest))
    · rw [if_neg hc]
      rw [ih d]
      constructor
      · intro h x hx
        rcases List.mem_cons.1 hx with rfl | hx'
        · intro hbad; exact hc ⟨hbad.2, hbad.1⟩
        · exact h x hx'
      · intro h x hx; exact h x (List.mem_cons_of_mem c hx)

theorem findBest_min (e : Order) (P S : ℚ) :
    ∀ (l : List Order) (best : Option Order) (d : ℚ) (b : Order),
      findBest e P S l best d = some b →
      (∀ c ∈ l, devOk e c P S → totalDev e c < d → totalDev e b ≤ totalDev e c) ∧
      ((best = some b ∧ ∀ c ∈ l, ¬(devOk e c P S ∧ totalDev e c < d)) ∨
        (b ∈ l ∧ devOk e b P S ∧ totalDev e b < d)) := by
  intro l
  induction l with
  | nil =>
    intro best d b h
    simp only [findBest] at h
    exact ⟨by simp, Or.inl ⟨h, by simp⟩⟩
  | cons c rest ih =>
    intro best d b h
    simp only [findBest] at h
    by_cases hc : totalDev e c < d ∧ devOk e c P S
    · rw [if_pos hc] at h
      obtain ⟨ih1, ih2⟩ := ih (some c) (totalDev e c) b h
      have hble : totalDev e b ≤ totalDev e c := by
        rcases ih2 with ⟨hbc, -⟩ | ⟨-, -, hlt⟩
        · injection hbc with hcb; rw [hcb]
        · exact le_of_lt hlt
      constructor
      · intro x hx hxok hxlt
        rcases List.mem_cons.1 hx with rfl | hx'
        · exact hble
        · by_cases hxc : totalDev e x < totalDev e c
          · exact ih1 x hx' hxok hxc
          · exact hble.trans (not_lt.1 hxc)
      · right
        rcases ih2 with ⟨hbc, -⟩ | ⟨hmem, hok, hlt⟩
        · injection hbc with hcb
          exact hcb ▸ ⟨List.mem_cons_self c rest, hc.2, hc.1⟩
        · exact ⟨List.mem_cons_of_mem c hmem, hok, hlt.trans hc.1⟩
    · rw [if_neg hc] at h
      obtain ⟨ih1, ih2⟩ := ih best d b h
      constructor
      · intro x hx hxok hxlt
        rcases List.mem_cons.1 hx with rfl | hx'
        · exact absurd ⟨hxlt, hxok⟩ hc
        · exact ih1 x hx' hxok hxlt
      · rcases ih2 with ⟨hb, hall⟩ | ⟨hmem, hok, hlt⟩
        · left
          refine ⟨hb, fun x hx => ?_⟩
          rcases List.mem_cons.1 hx with rfl | hx'
          · intro hbad; exact hc ⟨hbad.2, hbad.1⟩
          · exact hall x hx'
        · right; exact ⟨List.mem_cons_of_mem c hmem, hok, hlt⟩

theorem findBest_first (e : Order) (P S : ℚ) :
    ∀ (l : List Order) (best : Option Order) (d : ℚ) (b : Order),
      findBest e P S l best d = some b →
      best = some b ∨
        ∃ pre post, l = pre ++ b :: post ∧ devOk e b P S ∧ totalDev e b < d ∧
          ∀ c ∈ pre, devOk e c P S → totalDev e c < d → totalDev e b < totalDev e c := by
  intro l
  induction l with
  | nil => intro best d b h; simp only [findBest] at h; exact Or.inl h
  | cons c rest ih =>
    intro best d b h
    simp only [findBest] at h
    by_cases hc : totalDev e c < d ∧ devOk e c P S
    · rw [if_pos hc] at h
      rcases ih (some c) (totalDev e c) b h with hcb | ⟨pre, post, heq, hok, hlt, hpre⟩
      · injection hcb with hcb'
        subst hcb'
        exact Or.inr ⟨[], rest, rfl, hc.2, hc.1, by simp⟩
      · refine Or.inr ⟨c :: pre, post, by rw [heq, List.cons_append], hok, hlt.trans hc.1, ?_⟩
        intro x hx hxok hxlt
        rcases List.mem_cons.1 hx with rfl | hx'
        · exact hlt
        · by_cases hxc : totalDev e x < totalDev e c
          · exact hpre x hx' hxok hxc
          · exact lt_of_lt_of_le hlt (not_lt.1 hxc)
    · rw [if_neg hc] at h
      rcases ih best d b h with hb | ⟨pre, post, heq, hok, hlt, hpre⟩
      · exact Or.inl hb
      · refine Or.inr ⟨c :: pre, post, by rw [heq, List.cons_append], hok, hlt, ?_⟩
        intro x hx hxok hxlt
        rcases List.mem_cons.1 hx with rfl | hx'
        · exact absurd ⟨hxlt, hxok⟩ hc
        · exact hpre x hx' hxok hxlt

theorem truthyPrice_eq_false_iff (p : Option ℚ) :
    truthyPrice p = false ↔ p = none ∨ p = some 0 := by
  cases p with
  | none => simp [truthyPrice]
  | some q => simp [truthyPrice]

theorem totalDev_lt_max (e c : Order) (P S : ℚ) (hsum : P + S < jsMaxValue)
    (h : devOk e c P S) : totalDev e c < jsMaxValue :=
  lt_of_le_of_lt (add_le_add h.1 h.2) hsum

theorem mem_sameType_iff (e c : Order) (cs : List Order) :
    c ∈ cs.filter (fun o => decide (o.side = e.side ∧ o.type = e.type)) ↔
      c ∈ cs ∧ c.side = e.side ∧ c.type = e.type := by
  simp [List.mem_filter]

/-- C3: `findMatchingOrder` considers only same-side same-kind candidates,
eligibility is exactly the two threshold checks, the returned candidate
minimises the (unweighted) deviation sum with first-seen tie-breaking, and
`none` is returned iff no candidate is eligible — all provided the thresholds
sum to below `Number.MAX_VALUE`, the initial minimum of the scan (the original
claim, quantified over all thresholds, fails without that proviso). -/
theorem mm_findMatchingOrder_spec (e : Order) (cs : List Order) (P S : ℚ)
    (hsum : P + S < jsMaxValue) :
    (findMatchingOrder e cs P S = none ↔ ∀ c ∈ cs, ¬eligibleMatch e c P S) ∧
    (∀ b, findMatchingOrder e cs P S = some b →
      b ∈ cs ∧ eligibleMatch e b P S ∧
      (∀ c ∈ cs, eligibleMatch e c P S → totalDev e b ≤ totalDev e c) ∧
      ∃ pre post,
        cs.filter (fun o => decide (o.side = e.side ∧ o.type = e.type)) = pre ++ b :: post ∧
        ∀ c ∈ pre, eligibleMatch e c P S → totalDev e b < totalDev e c) := by
  have helig : ∀ c, c.side = e.side → c.type = e.type →
      (devOk e c P S ↔ eligibleMatch e c P S) := by
    intro c h1 h2
    unfold devOk eligibleMatch
    tauto
  constructor
  · rw [findMatchingOrder, findBest_none_iff]
    constructor
    · intro h c hc hel
      exact h c ((mem_sameType_iff e c cs).2 ⟨hc, hel.1, hel.2.1⟩)
        ⟨(helig c hel.1 hel.2.1).2 hel, totalDev_lt_max e c P S hsum ((helig c hel.1 hel.2.1).2 hel)⟩
    · intro h c hc hbad
      obtain ⟨hcs, h1, h2⟩ := (mem_sameType_iff e c cs).1 hc
      exact h c hcs ((helig c h1 h2).1 hbad.1)
  · intro b hb
    rw [findMatchingOrder] at hb
    obtain ⟨hmin, hcases⟩ := findBest_min e P S _ none jsMaxValue b hb
    rcases hcases with ⟨hcontra, -⟩ | ⟨hmem, hok, -⟩
    · exact absurd hcontra.symm (Option.some_ne_none b)
    obtain ⟨hcs, h1, h2⟩ := (mem_sameType_iff e b cs).1 hmem
    have helb : eligibleMatch e b P S := (helig b h1 h2).1 hok
    refine ⟨hcs, helb, ?_, ?_⟩
    · intro c hc hel
      exact hmin c ((mem_sameType_iff e c cs).2 ⟨hc, hel.1, hel.2.1⟩)
        ((helig c hel.1 hel.2.1).2 hel) (totalDev_lt_max e c P S hsum ((helig c hel.1 hel.2.1).2 hel))
    · rcases findBest_first e P S _ none jsMaxValue b hb with hcontra | ⟨pre, post, heq, -, -, hpre⟩
      · exact absurd hcontra.symm (Option.some_ne_none b)
      refine ⟨pre, post, heq, ?_⟩
      intro c hc hel
      exact hpre c hc ((helig c hel.1 hel.2.1).2 hel)
        (totalDev_lt_max e c P S hsum ((helig c hel.1 hel.2.1).2 hel))

def exResting : Order :=
  ⟨"BTC-USDB", OrderSide.bid, OrderType.limit, some 100, 1, 0, some 1, some "a1",
    some OrderStatus.new⟩

def exDesired : Order :=
  ⟨"BTC-USDB", OrderSide.bid, OrderType.limit, some (100 + 1 / 2000), 51 / 50, 1, some 1,
    none, none⟩

theorem mm_findMatchingOrder_spec_witness :
    eligibleMatch exResting exDesired (1 / 1000) (1 / 10) :=
  ((mm_findMatchingOrder_spec exResting [exDesired] (1 / 1000) (1 / 10)
      (by norm_num [jsMaxValue])).2 exDesired (by with_unfolding_all rfl)).2.1

/-- An eligible candidate whose deviation sum equals `Number.MAX_VALUE`: the
strict `totalDeviation < minDeviation` comparison never fires, so
`findMatchingOrder` returns `null` even though an eligible candidate exists,
refuting the original C3 "returns none iff no candidate is eligible". -/
def exHugeResting : Order :=
  ⟨"P", OrderSide.bid, OrderType.limit, some 1, 1, 0, none, none, none⟩

def exHugeCand : Order :=
  ⟨"P", OrderSide.bid, OrderType.limit, some (1 + jsMaxValue), 1, 0, none, none, none⟩

theorem mm_findMatchingOrder_maxvalue_cex :
    eligibleMatch exHugeResting exHugeCand jsMaxValue jsMaxValue ∧
    findMatchingOrder exHugeResting [exHugeCand] jsMaxValue jsMaxValue = none :=
  ⟨of_decide_eq_true (by with_unfolding_all rfl), by with_unfolding_all rfl⟩

/-- C10: `compareOrders` returns priceDeviation 1 when either price is absent
or 0 (truthiness, not presence), so with any `maxPriceDeviation < 1`
`findMatchingOrder` never matches a pair in which the resting order or the
candidate has price 0 or no price. -/
theorem mm_falsy_price_never_matches (maxP maxS : ℚ) (hP : maxP < 1) :
    (∀ e c : Order,
      e.price = none ∨ e.price = some 0 ∨ c.price = none ∨ c.price = some 0 →
      (compareOrders e c).priceDeviation = 1) ∧
    (∀ (e : Order) (cs : List Order), e.price = none ∨ e.price = some 0 →
      findMatchingOrder e cs maxP maxS = none) ∧
    (∀ (e : Order) (cs : List Order) (b : Order), findMatchingOrder e cs maxP maxS = some b →
      ¬(e.price = none ∨ e.price = some 0 ∨ b.price = none ∨ b.price = some 0)) := by
  have hdev1 : ∀ e c : Order,
      e.price = none ∨ e.price = some 0 ∨ c.price = none ∨ c.price = some 0 →
      (compareOrders e c).priceDeviation = 1 := by
    intro e c h
    have hcond : (truthyPrice e.price && truthyPrice c.price) = false := by
      rcases h with h | h | h | h
      · rw [(truthyPrice_eq_false_iff e.price).2 (Or.inl h)]; rfl
      · rw [(truthyPrice_eq_false_iff e.price).2 (Or.inr h)]; rfl
      · rw [(truthyPrice_eq_false_iff c.price).2 (Or.inl h), Bool.and_false]
      · rw [(truthyPrice_eq_false_iff c.price).2 (Or.inr h), Bool.and_false]
    simp [compareOrders, hcond]
  have hnone : ∀ (e : Order) (cs : List Order), e.price = none ∨ e.price = some 0 →
      findMatchingOrder e cs maxP maxS = none := by
    intro e cs he
    rw [findMatchingOrder, findBest_none_iff]
    intro c hc hbad
    have h1 : (compareOrders e c).priceDeviation = 1 := by
      rcases he with he | he
      · exact hdev1 e c (Or.inl he)
      · exact hdev1 e c (Or.inr (Or.inl he))
    have := hbad.1.1
    rw [h1] at this
    exact absurd (lt_of_le_of_lt this hP) (lt_irrefl 1)
  refine ⟨hdev1, hnone, ?_⟩
  intro e cs b hb hfalsy
  rcases hfalsy with he | he | hbp | hbp
  · rw [hnone e cs (Or.inl he)] at hb; exact Option.noConfusion hb
  · rw [hnone e cs (Or.inr he)] at hb; exact Option.noConfusion hb
  all_goals {
    rw [findMatchingOrder] at hb
    obtain ⟨-, hcases⟩ := findBest_min e maxP maxS _ none jsMaxValue b hb
    rcases hcases with ⟨hcontra, -⟩ | ⟨-, hok, -⟩
    · exact absurd hcontra.symm (Option.some_ne_none b)
    have h1 : (compareOrders e b).priceDeviation = 1 := by
      first
        | exact hdev1 e b (Or.inr (Or.inr (Or.inl hbp)))
        | exact hdev1 e b (Or.inr (Or.inr (Or.inr hbp)))
    have := hok.1
    rw [h1] at this
    exact absurd (lt_of_le_of_lt this hP) (lt_irrefl 1) }

def exNoPrice : Order :=
  ⟨"BTC-USDB", OrderSide.bid, OrderType.market, none, 1, 0, none, none, none⟩

theorem mm_falsy_price_never_matches_witness :
    findMatchingOrder exNoPrice [exDesired] (1 / 1000) (1 / 10) = none :=
  (mm_falsy_price_never_matches (1 / 1000) (1 / 10) (by norm_num)).2.1 exNoPrice [exDesired]
    (Or.inl rfl)

/-! ## Reconciliation: `MarketMakerBot.manageOrders`

The JS `matchedNewOrders` set stores object references; structurally equal
orders at different array positions are distinct objects.  We therefore tag
each desired order with its position (`idxFrom 0 newOrders`) and track claimed
orders by tag.  Filtering the tagged list incrementally as tags are claimed is
equivalent to the source's `newOrders.filter((o) => !matchedNewOrders.has(o))`
recomputed each iteration, because the matched set only grows. -/

/-- Tag every order with its position in the array, starting at `i`. -/
def idxFrom (i : ℕ) : List Order → List (ℕ × Order)
  | [] => []
  | o :: rest => (i, o) :: idxFrom (i + 1) rest

theorem idxFrom_le (i : ℕ) : ∀ (l : List Order), ∀ p ∈ idxFrom i l, i ≤ p.1 := by
  intro l
  induction l generalizing i with
  | nil => intro p hp; simp [idxFrom] at hp
  | cons o rest ih =>
    intro p hp
    rcases List.mem_cons.1 hp with rfl | hp'
    · exact le_refl i
    · exact le_of_lt (lt_of_lt_of_le (Nat.lt_succ_self i) (ih (i + 1) p hp'))

/-- `findBest` on position-tagged candidates (same scan as `findBest`). -/
def findBestIdx (existingOrder : Order) (maxPriceDev maxSizeDev : ℚ) :
    List (ℕ × Order) → Option (ℕ × Order) → ℚ → Option (ℕ × Order)
  | [], best, _ => best
  | cand :: rest, best, minDev =>
    if totalDev existingOrder cand.2 < minDev ∧
        devOk existingOrder cand.2 maxPriceDev maxSizeDev then
      findBestIdx existingOrder maxPriceDev maxSizeDev rest (some cand)
        (totalDev existingOrder cand.2)
    else
      findBestIdx existingOrder maxPriceDev maxSizeDev rest best minDev

/-- `findMatchingOrder` on position-tagged candidates. -/
def findMatchingOrderIdx (existingOrder : Order) (cands : List (ℕ × Order))
    (maxPriceDev maxSizeDev : ℚ) : Option (ℕ × Order) :=
  findBestIdx existingOrder maxPriceDev maxSizeDev
    (cands.filter
      (fun c => decide (c.2.side = existingOrder.side ∧ c.2.type = existingOrder.type)))
    none jsMaxValue

/-- First pass of `manageOrders` (src/bots/MarketMakerBot.ts lines 86-101):
walk the resting map in insertion order; on a tolerance match with
`Math.random() > cancelReplaceRatio` mark keep and claim the match, otherwise
mark cancel.  `draws n` is the `Math.random()` value available at the n-th
resting order; `avail` is the not-yet-claimed tagged desired list.  Returns
(ordersToKeep, ordersToCancel, unclaimed desired orders). -/
def classifyOrders (crr maxPriceDev maxSizeDev : ℚ) (draws : ℕ → ℚ) :
    List (String × Order) → List (ℕ × Order) → ℕ →
      List (String × Order) × List (String × Order) × List (ℕ × Order)
  | [], avail, _ => ([], [], avail)
  | (k, o) :: rest, avail, i =>
    match findMatchingOrderIdx o avail maxPriceDev maxSizeDev with
    | some m =>
      if draws i > crr then
        let r := classifyOrders crr maxPriceDev maxSizeDev draws rest
          (avail.filter (fun c => decide (c.1 ≠ m.1))) (i + 1)
        ((k, o) :: r.1, r.2.1, r.2.2)
      else
        let r := classifyOrders crr maxPriceDev maxSizeDev draws rest avail (i + 1)
        (r.1, (k, o) :: r.2.1, r.2.2)
    | none =>
      let r := classifyOrders crr maxPriceDev maxSizeDev draws rest avail (i + 1)
      (r.1, (k, o) :: r.2.1, r.2.2)

/-- Delete a key from the (insertion-ordered) map. -/
def mapDelete (m : List (String × Order)) (k : String) : List (String × Order) :=
  m.filter (fun e => decide (e.1 ≠ k))

/-- JS `Map.set`: replace in place if the key exists, else append. -/
def mapSet (m : List (String × Order)) (k : String) (v : Order) : List (String × Order) :=
  if m.any (fun e => decide (e.1 = k)) then
    m.map (fun e => if e.1 = k then (k, v) else e)
  else m ++ [(k, v)]

/-- What one placement call records (src/bots/MarketMakerBot.ts lines 146-179):
`none` when `submitOrder` throws, when the returned id list is empty, or when
the first id is falsy; otherwise the venue-id-keyed entry with status "new".
`placeOutcome j` is the outcome of `submitOrder` for desired order `j`
(`none` = the call threw, `some ids` = the returned `getOrderIds()`). -/
def placedEntry (placeOutcome : ℕ → Option (List String)) (p : ℕ × Order) :
    Option (String × Order) :=
  match placeOutcome p.1 with
  | none => none
  | some ids =>
    match ids.head? with
    | none => none
    | some oid =>
      if oid = "" then none
      else some (oid, { p.2 with id := some oid, status := some OrderStatus.new })

/-- Result of one `manageOrders` cycle: the resting map afterwards plus the
classification produced on the way (`cancelCall` is the id batch passed to
`client.cancelOrders`, when that call was made). -/
structure ManageOutcome where
  orders : List (String × Order)
  kept : List (String × Order)
  cancelled : List (String × Order)
  placed : List (ℕ × Order)
  cancelCall : Option (List String)
deriving DecidableEq, Repr

/-- `MarketMakerBot.manageOrders` (src/bots/MarketMakerBot.ts lines 71-196).
`cancelOk` is the outcome of the single batch `client.cancelOrders` call.  On
batch-cancel success each cancelled order is deleted from the map (the source
looks its key up by object identity — the key it was iterated under in the
first pass); on failure the map is left unchanged.  Unmatched desired orders
are submitted individually in order; a successful call with a usable id
records the order under the venue id with status "new". -/
def manageOrders (resting : List (String × Order)) (newOrders : List Order)
    (crr : ℚ) (draws : ℕ → ℚ) (cancelOk : Bool)
    (placeOutcome : ℕ → Option (List String)) : ManageOutcome :=
  let c := classifyOrders crr (1 / 1000) (1 / 10) draws resting (idxFrom 0 newOrders) 0
  let ordersToKeep := c.1
  let ordersToCancel := c.2.1
  let ordersToPlace := c.2.2
  let orderIdsToCancel := ordersToCancel.filterMap (fun e => e.2.id)
  let callMade := ordersToCancel.length > 0 ∧ orderIdsToCancel.length > 0
  let afterCancel :=
    if callMade then
      if cancelOk then ordersToCancel.foldl (fun m e => mapDelete m e.1) resting
      else resting
    else resting
  let afterPlace := ordersToPlace.foldl
    (fun m p =>
      match placedEntry placeOutcome p with
      | none => m
      | some kv => mapSet m kv.1 kv.2)
    afterCancel
  { orders := afterPlace
    kept := ordersToKeep
    cancelled := ordersToCancel
    placed := ordersToPlace
    cancelCall := if callMade then some orderIdsToCancel else none }

theorem classify_sublist (crr P S : ℚ) (draws : ℕ → ℚ) :
    ∀ (resting : List (String × Order)) (avail : List (ℕ × Order)) (i : ℕ),
      List.Sublist (classifyOrders crr P S draws resting avail i).1 resting ∧
      List.Sublist (classifyOrders crr P S draws resting avail i).2.1 resting := by
  intro resting
  induction resting with
  | nil => intro avail i; simp [classifyOrders]
  | cons e rest ih =>
    intro avail i
    obtain ⟨k, o⟩ := e
    cases hm : findMatchingOrderIdx o avail P S with
    | none =>
      simp only [classifyOrders, hm]
      exact ⟨((ih avail (i + 1)).1).cons _, ((ih avail (i + 1)).2).cons₂ _⟩
    | some m =>
      by_cases hdw : draws i > crr
      · simp only [classifyOrders, hm, if_pos hdw]
        exact ⟨((ih _ (i + 1)).1).cons₂ _, ((ih _ (i + 1)).2).cons _⟩
      · simp only [classifyOrders, hm, if_neg hdw]
        exact ⟨((ih avail (i + 1)).1).cons _, ((ih avail (i + 1)).2).cons₂ _⟩

theorem mapDelete_cons_of_ne (k k' : String) (o : Order) (m : List (String × Order))
    (h : ¬k = k') : mapDelete ((k, o) :: m) k' = (k, o) :: mapDelete m k' := by
  simp [mapDelete, h]

theorem mapDelete_cons_self (k : String) (o : Order) (m : List (String × Order)) :
    mapDelete ((k, o) :: m) k = mapDelete m k := by
  simp [mapDelete]

theorem mapDelete_of_not_mem (m : List (String × Order)) (k : String)
    (h : k ∉ m.map Prod.fst) : mapDelete m k = m := by
  unfold mapDelete
  apply List.filter_eq_self.2
  intro e he
  have : e.1 ≠ k := fun hek => h (List.mem_map.2 ⟨e, he, hek⟩)
  simpa using this

theorem foldl_mapDelete_cons (k : String) (o : Order) :
    ∀ (cancels : List (String × Order)) (m : List (String × Order)),
      (∀ e ∈ cancels, e.1 ≠ k) →
      cancels.foldl (fun m e => mapDelete m e.1) ((k, o) :: m)
        = (k, o) :: cancels.foldl (fun m e => mapDelete m e.1) m := by
  intro cancels
  induction cancels with
  | nil => intro m _; rfl
  | cons c cs ih =>
    intro m h
    simp only [List.foldl_cons]
    rw [mapDelete_cons_of_ne k c.1 o m (fun hk => (h c (List.mem_cons_self c cs)) hk.symm)]
    exact ih (mapDelete m c.1) (fun e he => h e (List.mem_cons_of_mem c he))

theorem classify_foldDelete (crr P S : ℚ) (draws : ℕ → ℚ) :
    ∀ (resting : List (String × Order)) (avail : List (ℕ × Order)) (i : ℕ),
      (resting.map Prod.fst).Nodup →
      (classifyOrders crr P S draws resting avail i).2.1.foldl
          (fun m e => mapDelete m e.1) resting
        = (classifyOrders crr P S draws resting avail i).1 := by
  intro resting
  induction resting with
  | nil => intro avail i _; simp [classifyOrders]
  | cons e rest ih =>
    intro avail i hnd
    obtain ⟨k, o⟩ := e
    have hk : k ∉ rest.map Prod.fst := by
      simp only [List.map_cons, List.nodup_cons] at hnd
      exact hnd.1
    have hnd' : (rest.map Prod.fst).Nodup := by
      simp only [List.map_cons, List.nodup_cons] at hnd
      exact hnd.2
    have hcancelstep : ∀ (avail' : List (ℕ × Order)),
        ((k, o) :: (classifyOrders crr P S draws rest avail' (i + 1)).2.1).foldl
            (fun m e => mapDelete m e.1) ((k, o) :: rest)
          = (classifyOrders crr P S draws rest avail' (i + 1)).1 := by
      intro avail'
      simp only [List.foldl_cons]
      rw [mapDelete_cons_self, mapDelete_of_not_mem rest k hk, ih avail' (i + 1) hnd']
    cases hm : findMatchingOrderIdx o avail P S with
    | none =>
      simp only [classifyOrders, hm]
      exact hcancelstep avail
    | some m =>
      by_cases hdw : draws i > crr
      · simp only [classifyOrders, hm, if_pos hdw]
        have hsub := (classify_sublist crr P S draws rest
          (avail.filter (fun c => decide (c.1 ≠ m.1))) (i + 1)).2
        have hne : ∀ e ∈ (classifyOrders crr P S draws rest
            (avail.filter (fun c => decide (c.1 ≠ m.1))) (i + 1)).2.1, e.1 ≠ k := by
          intro e he hek
          exact hk (List.mem_map.2 ⟨e, hsub.subset he, hek⟩)
        rw [foldl_mapDelete_cons k o _ rest hne, ih _ (i + 1) hnd']
      · simp only [classifyOrders, hm, if_neg hdw]
        exact hcancelstep avail

theorem mapSet_of_not_mem (m : List (String × Order)) (k : String) (v : Order)
    (h : k ∉ m.map Prod.fst) : mapSet m k v = m ++ [(k, v)] := by
  unfold mapSet
  rw [if_neg]
  intro hany
  obtain ⟨e, he, hdec⟩ := List.any_eq_true.1 hany
  exact h (List.mem_map.2 ⟨e, he, of_decide_eq_true hdec⟩)

theorem foldl_placedEntry (placeOutcome : ℕ → Option (List String)) :
    ∀ (toPlace : List (ℕ × Order)) (m : List (String × Order)),
      (m.map Prod.fst ++ toPlace.filterMap
          (fun p => (placedEntry placeOutcome p).map Prod.fst)).Nodup →
      toPlace.foldl
          (fun m p =>
            match placedEntry placeOutcome p with
            | none => m
            | some kv => mapSet m kv.1 kv.2) m
        = m ++ toPlace.filterMap (placedEntry placeOutcome) := by
  intro toPlace
  induction toPlace with
  | nil => intro m _; simp
  | cons p rest ih =>
    intro m h
    simp only [List.foldl_cons, List.filterMap_cons]
    cases hpe : placedEntry placeOutcome p with
    | none =>
      simp only [hpe]
      refine ih m ?_
      simpa only [List.filterMap_cons, hpe, Option.map_none'] using h
    | some kv =>
      simp only [hpe]
      simp only [List.filterMap_cons, hpe, Option.map_some'] at h
      have hnotmem : kv.1 ∉ m.map Prod.fst := by
        intro hmem
        have hdisj := (List.nodup_append.1 h).2.2
        exact hdisj hmem (List.mem_cons_self _ _)
      rw [mapSet_of_not_mem m kv.1 kv.2 hnotmem]
      have h' : ((m ++ [(kv.1, kv.2)]).map Prod.fst ++
          rest.filterMap (fun p => (placedEntry placeOutcome p).map Prod.fst)).Nodup := by
        simp only [List.map_append, List.map_cons, List.map_nil]
        rw [List.append_assoc]
        simpa using h
      rw [ih (m ++ [(kv.1, kv.2)]) h']
      simp

theorem filterMap_id_eq_keys :
    ∀ (l : List (String × Order)), (∀ e ∈ l, e.2.id = some e.1) →
      l.filterMap (fun e => e.2.id) = l.map Prod.fst := by
  intro l
  induction l with
  | nil => intro _; rfl
  | cons e rest ih =>
    intro h
    simp only [List.filterMap_cons, h e (List.mem_cons_self e rest), List.map_cons]
    rw [ih (fun x hx => h x (List.mem_cons_of_mem e hx))]

theorem placedEntry_fields (placeOutcome : ℕ → Option (List String)) (p : ℕ × Order)
    (kv : String × Order) (hpe : placedEntry placeOutcome p = some kv) :
    kv.2.status = some OrderStatus.new ∧ kv.2.id = some kv.1 := by
  unfold placedEntry at hpe
  split at hpe
  · exact Option.noConfusion hpe
  · split at hpe
    · exact Option.noConfusion hpe
    · split at hpe
      · exact Option.noConfusion hpe
      · cases hpe; exact ⟨rfl, rfl⟩

/-- C1: after a `manageOrders` cycle the resting map is exactly the kept
entries (all entries, when the batch cancel call failed or was not needed)
followed by the successfully placed desired orders, each recorded under its
venue-returned id with status "new"; desired orders whose placement call
failed (or returned no usable id) are absent.  Hypotheses: every map entry
stores its own key as the order's id (an invariant of placement), and the
venue-returned ids are fresh and pairwise distinct. -/
theorem mm_manageOrders_resting_exact
    (resting : List (String × Order)) (newOrders : List Order) (crr : ℚ)
    (draws : ℕ → ℚ) (cancelOk : Bool) (placeOutcome : ℕ → Option (List String))
    (hwf : ∀ e ∈ resting, e.2.id = some e.1)
    (hfresh : (resting.map Prod.fst ++
        (manageOrders resting newOrders crr draws cancelOk placeOutcome).placed.filterMap
          (fun p => (placedEntry placeOutcome p).map Prod.fst)).Nodup) :
    (manageOrders resting newOrders crr draws cancelOk placeOutcome).orders =
      (if cancelOk then (manageOrders resting newOrders crr draws cancelOk placeOutcome).kept
        else resting) ++
        (manageOrders resting newOrders crr draws cancelOk placeOutcome).placed.filterMap
          (placedEntry placeOutcome) ∧
    ∀ kv ∈ (manageOrders resting newOrders crr draws cancelOk placeOutcome).placed.filterMap
        (placedEntry placeOutcome),
      kv.2.status = some OrderStatus.new ∧ kv.2.id = some kv.1 := by
  constructor
  · simp only [manageOrders] at hfresh ⊢
    set cls := classifyOrders crr (1 / 1000) (1 / 10) draws resting (idxFrom 0 newOrders) 0
      with hclsdef
    have hkeys : (resting.map Prod.fst).Nodup := hfresh.of_append_left
    have hkeep := classify_foldDelete crr (1 / 1000) (1 / 10) draws resting
      (idxFrom 0 newOrders) 0 hkeys
    have hsubk := (classify_sublist crr (1 / 1000) (1 / 10) draws resting
      (idxFrom 0 newOrders) 0).1
    have hsubc := (classify_sublist crr (1 / 1000) (1 / 10) draws resting
      (idxFrom 0 newOrders) 0).2
    rw [← hclsdef] at hkeep hsubk hsubc
    have hids : cls.2.1.filterMap (fun e => e.2.id) = cls.2.1.map Prod.fst :=
      filterMap_id_eq_keys cls.2.1 (fun e he => hwf e (hsubc.subset he))
    by_cases hc0 : cls.2.1 = []
    · have hcall : ¬(cls.2.1.length > 0 ∧ (cls.2.1.filterMap (fun e => e.2.id)).length > 0) := by
        rw [hc0]; simp
      rw [if_neg hcall]
      have hkr : resting = cls.1 := by
        rw [hc0] at hkeep
        exact hkeep.symm ▸ rfl
      have hif : (if cancelOk then cls.1 else resting) = resting := by
        cases cancelOk
        · simp
        · simp [← hkr]
      rw [hif]
      exact foldl_placedEntry placeOutcome cls.2.2 resting hfresh
    · have hcall : cls.2.1.length > 0 ∧ (cls.2.1.filterMap (fun e => e.2.id)).length > 0 := by
        constructor
        · exact List.length_pos.2 hc0
        · rw [hids, List.length_map]
          exact List.length_pos.2 hc0
      rw [if_pos hcall]
      cases cancelOk
      · simp only [Bool.false_eq_true, if_false]
        exact foldl_placedEntry placeOutcome cls.2.2 resting hfresh
      · simp only [if_true]
        rw [hkeep]
        refine foldl_placedEntry placeOutcome cls.2.2 cls.1 ?_
        exact ((hsubk.map Prod.fst).append (List.Sublist.refl _)).nodup hfresh
  · intro kv hkv
    obtain ⟨p, _, hpe⟩ := List.mem_filterMap.1 hkv
    exact placedEntry_fields placeOutcome p kv hpe

def exDraws : ℕ → ℚ := fun _ => 1 / 2

def exPlaceOne : ℕ → Option (List String) := fun _ => some ["n1"]

def exFresh : Order :=
  ⟨"BTC-USDB", OrderSide.ask, OrderType.limit, some 101, 1 / 2, 2, some 1, none, none⟩

theorem mm_manageOrders_resting_exact_witness :
    (manageOrders [("a1", exResting)] [exResting, exFresh] 0 exDraws true exPlaceOne).orders =
      (if true then (manageOrders [("a1", exResting)] [exResting, exFresh] 0 exDraws true
          exPlaceOne).kept
        else [("a1", exResting)]) ++
        (manageOrders [("a1", exResting)] [exResting, exFresh] 0 exDraws true
          exPlaceOne).placed.filterMap (placedEntry exPlaceOne) ∧
    ∀ kv ∈ (manageOrders [("a1", exResting)] [exResting, exFresh] 0 exDraws true
        exPlaceOne).placed.filterMap (placedEntry exPlaceOne),
      kv.2.status = some OrderStatus.new ∧ kv.2.id = some kv.1 :=
  mm_manageOrders_resting_exact [("a1", exResting)] [exResting, exFresh] 0 exDraws true
    exPlaceOne (of_decide_eq_true (by with_unfolding_all rfl))
    (of_decide_eq_true (by with_unfolding_all rfl))

theorem priceDeviation_nonneg (e c : Order) : 0 ≤ (compareOrders e c).priceDeviation := by
  simp only [compareOrders]
  split
  · exact jsAbs_nonneg _
  · exact zero_le_one

theorem sizeDeviation_nonneg (e c : Order) : 0 ≤ (compareOrders e c).sizeDeviation :=
  jsAbs_nonneg _

theorem totalDev_nonneg (e c : Order) : 0 ≤ totalDev e c :=
  add_nonneg (priceDeviation_nonneg e c) (sizeDeviation_nonneg e c)

theorem findBestIdx_stay (e : Order) (P S : ℚ) :
    ∀ (l : List (ℕ × Order)) (b : ℕ × Order) (d : ℚ), d ≤ 0 →
      findBestIdx e P S l (some b) d = some b := by
  intro l
  induction l with
  | nil => intro b d _; rfl
  | cons c rest ih =>
    intro b d hd
    simp only [findBestIdx]
    rw [if_neg]
    · exact ih b d hd
    · intro hbad
      exact absurd (lt_of_lt_of_le hbad.1 hd) (not_lt.2 (totalDev_nonneg e c.2))

theorem compareOrders_self_zero (o : Order) (ht : truthyPrice o.price = true) :
    (compareOrders o o).priceDeviation = 0 ∧ (compareOrders o o).sizeDeviation = 0 := by
  simp only [compareOrders, ht, Bool.and_self, if_true, sub_self, zero_div]
  constructor <;> simp [jsAbs]

theorem jsMaxValue_pos : (0 : ℚ) < jsMaxValue := by norm_num [jsMaxValue]

theorem findMatchingOrderIdx_self (o : Order) (i : ℕ) (rest : List (ℕ × Order))
    (ht : truthyPrice o.price = true) :
    findMatchingOrderIdx o ((i, o) :: rest) (1 / 1000) (1 / 10) = some (i, o) := by
  unfold findMatchingOrderIdx
  rw [List.filter_cons_of_pos (by simp)]
  obtain ⟨hpd, hsd⟩ := compareOrders_self_zero o ht
  simp only [findBestIdx]
  rw [if_pos]
  · exact findBestIdx_stay o (1 / 1000) (1 / 10) _ (i, o) (totalDev o o)
      (le_of_eq (by rw [totalDev, hpd, hsd, add_zero]))
  · refine ⟨?_, ?_, ?_⟩
    · rw [totalDev, hpd, hsd, add_zero]; exact jsMaxValue_pos
    · rw [hpd]; norm_num
    · rw [hsd]; norm_num

theorem filter_idxFrom_ne (i : ℕ) (vs : List Order) :
    (idxFrom (i + 1) vs).filter (fun c => decide (c.1 ≠ i)) = idxFrom (i + 1) vs := by
  apply List.filter_eq_self.2
  intro p hp
  have : i + 1 ≤ p.1 := idxFrom_le (i + 1) vs p hp
  simp only [decide_eq_true_eq]
  omega

theorem classify_stable (draws : ℕ → ℚ) (hd : ∀ n, 0 < draws n) :
    ∀ (resting : List (String × Order)) (i : ℕ),
      (∀ e ∈ resting, truthyPrice e.2.price = true) →
      classifyOrders 0 (1 / 1000) (1 / 10) draws resting
          (idxFrom i (resting.map Prod.snd)) i
        = (resting, [], []) := by
  intro resting
  induction resting with
  | nil => intro i _; simp [classifyOrders, idxFrom]
  | cons e rest ih =>
    intro i hv
    obtain ⟨k, o⟩ := e
    have ht : truthyPrice o.price = true := (hv (k, o) (List.mem_cons_self _ _))
    have hm : findMatchingOrderIdx o
        ((i, o) :: idxFrom (i + 1) (rest.map Prod.snd)) (1 / 1000) (1 / 10) = some (i, o) :=
      findMatchingOrderIdx_self o i _ ht
    have hfilter : List.filter (fun c => decide (c.1 ≠ i))
        ((i, o) :: idxFrom (i + 1) (rest.map Prod.snd)) = idxFrom (i + 1) (rest.map Prod.snd) := by
      rw [List.filter_cons_of_neg (by simp)]
      exact filter_idxFrom_ne i _
    simp only [List.map_cons, idxFrom, classifyOrders, hm, if_pos (hd i), hfilter,
      ih (i + 1) (fun x hx => hv x (List.mem_cons_of_mem _ hx))]

def exDrawZero : ℕ → ℚ := fun _ => 0

/-- C2 counterexample: `Math.random() > cancelReplaceRatio` is a strict
comparison, so with ratio 0 a draw of exactly 0 cancels a resting order even
though a tolerance match (an exact copy) was found — and the cycle then
issues one cancel and one placement on an exact-repeat desired set,
refuting "always marked keep" and the zero-cancel/zero-placement claim. -/
theorem mm_crrZero_drawZero_cex :
    (manageOrders [("a1", exResting)] [exResting] 0 exDrawZero true exPlaceOne).cancelled
        = [("a1", exResting)] ∧
    (manageOrders [("a1", exResting)] [exResting] 0 exDrawZero true exPlaceOne).cancelCall
        = some ["a1"] ∧
    (manageOrders [("a1", exResting)] [exResting] 0 exDrawZero true exPlaceOne).placed
        = [(0, exResting)] :=
  of_decide_eq_true (by with_unfolding_all rfl)

/-- C2 (amended): with `cancelReplaceRatio = 0` a matched resting order is
kept whenever the draw is strictly positive (a draw of exactly 0 cancels);
with ratio 1 every resting order is cancelled regardless of a found match
(draws are < 1) and the match is not claimed; consequently, on an exact
repeat of the resting orders with ratio 0 and strictly positive draws, a
cycle issues zero cancels and zero placements and leaves the map unchanged.
The `size ≠ 0` hypothesis keeps the rational embedding faithful to JS, where
a zero resting size yields NaN deviations and no match. -/
theorem mm_cancelReplace_behaviour :
    (∀ (P S : ℚ) (draws : ℕ → ℚ) (k : String) (o : Order)
        (rest : List (String × Order)) (avail : List (ℕ × Order)) (i : ℕ) (m : ℕ × Order),
      findMatchingOrderIdx o avail P S = some m → 0 < draws i →
      classifyOrders 0 P S draws ((k, o) :: rest) avail i =
        ((k, o) :: (classifyOrders 0 P S draws rest
            (avail.filter (fun c => decide (c.1 ≠ m.1))) (i + 1)).1,
          (classifyOrders 0 P S draws rest
            (avail.filter (fun c => decide (c.1 ≠ m.1))) (i + 1)).2.1,
          (classifyOrders 0 P S draws rest
            (avail.filter (fun c => decide (c.1 ≠ m.1))) (i + 1)).2.2)) ∧
    (∀ (P S : ℚ) (draws : ℕ → ℚ) (k : String) (o : Order)
        (rest : List (String × Order)) (avail : List (ℕ × Order)) (i : ℕ),
      draws i < 1 →
      classifyOrders 1 P S draws ((k, o) :: rest) avail i =
        ((classifyOrders 1 P S draws rest avail (i + 1)).1,
          (k, o) :: (classifyOrders 1 P S draws rest avail (i + 1)).2.1,
          (classifyOrders 1 P S draws rest avail (i + 1)).2.2)) ∧
    (∀ (resting : List (String × Order)) (draws : ℕ → ℚ) (cancelOk : Bool)
        (placeOutcome : ℕ → Option (List String)),
      (∀ n, 0 < draws n) →
      (∀ e ∈ resting, truthyPrice e.2.price = true ∧ e.2.size ≠ 0) →
      manageOrders resting (resting.map Prod.snd) 0 draws cancelOk placeOutcome
        = ⟨resting, resting, [], [], none⟩) := by
  refine ⟨?_, ?_, ?_⟩
  · intro P S draws k o rest avail i m hm hdi
    simp only [classifyOrders, hm, if_pos hdi]
  · intro P S draws k o rest avail i hdi
    cases hm : findMatchingOrderIdx o avail P S with
    | none => simp only [classifyOrders, hm]
    | some m =>
      have : ¬draws i > 1 := not_lt.2 (le_of_lt hdi)
      simp only [classifyOrders, hm, if_neg this]
  · intro resting draws cancelOk placeOutcome hd hv
    have hcls := classify_stable draws hd resting 0 (fun e he => (hv e he).1)
    simp only [manageOrders, hcls]
    simp

theorem mm_cancelReplace_behaviour_witness :
    manageOrders [("a1", exResting)] (([("a1", exResting)] :
        List (String × Order)).map Prod.snd) 0 exDraws true exPlaceOne
      = ⟨[("a1", exResting)], [("a1", exResting)], [], [], none⟩ :=
  mm_cancelReplace_behaviour.2.2 [("a1", exResting)] exDraws true exPlaceOne
    (fun n => by norm_num [exDraws]) (of_decide_eq_true (by with_unfolding_all rfl))

/-! ## Quote ladder generation: `MarketMakerBot.run` (lines 209-303)

The per-cycle computation between the ticker fetch and `manageOrders`, with
the ticker values, the volatility estimate and the per-level `applyVariance`
size draws as explicit inputs.  `none` models the
"Cannot resolve bid >= ask issue. Skipping cycle." early return. -/

structure MakerCfg where
  baseSpreadPercentage : ℚ
  spreadVolatilityMultiplier : ℚ
  depthLevels : ℕ
  baseSizePerLevel : ℚ
  sizeRandomizationFactor : ℚ
deriving Repr

/-- `spread = baseSpreadPercentage * (1 + currentVolatility * spreadVolatilityMultiplier)`
with `currentVolatility = this.config.volatilityEstimate || 0.01` (JS `||`:
a volatility estimate of exactly 0 falls back to the 0.01 default). -/
def mmSpread (cfg : MakerCfg) (volEstimate : ℚ) : ℚ :=
  cfg.baseSpreadPercentage *
    (1 + (if volEstimate = 0 then 1 / 100 else volEstimate) * cfg.spreadVolatilityMultiplier)

/-- `targetBestBid = mid * (1 - spread/2)`, `targetBestAsk = mid * (1 + spread/2)`
with `mid = (ticker.bid + ticker.ask) / 2`; returned as (bid, ask). -/
def mmTargets (tickerBid tickerAsk : ℚ) (cfg : MakerCfg) (volEstimate : ℚ) : ℚ × ℚ :=
  let midPrice := (tickerBid + tickerAsk) / 2
  (midPrice * (1 - mmSpread cfg volEstimate / 2),
    midPrice * (1 + mmSpread cfg volEstimate / 2))

/-- The crossed-book check of `run` (lines 231-246): if `bid >= ask`, widen
once (`ask *= 1.0001; bid *= 0.9999`); if still crossed, skip the cycle. -/
def mmResolveCross (bid ask : ℚ) : Option (ℚ × ℚ) :=
  if bid ≥ ask then
    if bid * (9999 / 10000) ≥ ask * (10001 / 10000) then none
    else some (bid * (9999 / 10000), ask * (10001 / 10000))
  else some (bid, ask)

/-- `levelFactor = 1 + i * 0.1`. -/
def mmLevelFactor (i : ℕ) : ℚ := 1 + (i : ℚ) * (1 / 10)

/-- Rounded bid price at level `i`:
`roundToDecimalPlaces(targetBestBid - i * priceIncrement * levelFactor, 5)`
with `priceIncrement = (targetBestAsk - targetBestBid) / 2`. -/
def mmBidPrice (bestBid bestAsk : ℚ) (i : ℕ) : ℚ :=
  roundToDecimalPlaces
    (bestBid - (i : ℚ) * ((bestAsk - bestBid) / 2) * mmLevelFactor i) 5

/-- Rounded ask price at level `i` (note: the source never checks its sign). -/
def mmAskPrice (bestBid bestAsk : ℚ) (i : ℕ) : ℚ :=
  roundToDecimalPlaces
    (bestAsk + (i : ℚ) * ((bestAsk - bestBid) / 2) * mmLevelFactor i) 5

/-- Rounded bid size at level `i`:
`roundToDecimalPlaces(applyVariance(baseSizePerLevel * levelFactor, f), 8)`. -/
def mmBidSize (cfg : MakerCfg) (bidSizeDraw : ℕ → ℚ) (i : ℕ) : ℚ :=
  roundToDecimalPlaces
    (applyVariance (cfg.baseSizePerLevel * mmLevelFactor i) (bidSizeDraw i)) 8

def mmAskSize (cfg : MakerCfg) (askSizeDraw : ℕ → ℚ) (i : ℕ) : ℚ :=
  roundToDecimalPlaces
    (applyVariance (cfg.baseSizePerLevel * mmLevelFactor i) (askSizeDraw i)) 8

def mmBidOrder (pairSym : String) (bestBid bestAsk : ℚ) (cfg : MakerCfg)
    (bidSizeDraw : ℕ → ℚ) (now : ℤ) (i : ℕ) : Order :=
  ⟨pairSym, OrderSide.bid, OrderType.limit, some (mmBidPrice bestBid bestAsk i),
    mmBidSize cfg bidSizeDraw i, now, some (i + 1), none, none⟩

def mmAskOrder (pairSym : String) (bestBid bestAsk : ℚ) (cfg : MakerCfg)
    (askSizeDraw : ℕ → ℚ) (now : ℤ) (i : ℕ) : Order :=
  ⟨pairSym, OrderSide.ask, OrderType.limit, some (mmAskPrice bestBid bestAsk i),
    mmAskSize cfg askSizeDraw i, now, some (i + 1), none, none⟩

/-- The body of the level loop (lines 252-303).  `if (bidPrice <= 0) continue`
skips the REST of the level, ask quote included; each size check only skips
its own quote; the ask price is never checked. -/
def mmLevel (pairSym : String) (bestBid bestAsk : ℚ) (cfg : MakerCfg)
    (bidSizeDraw askSizeDraw : ℕ → ℚ) (now : ℤ) (i : ℕ) : List Order :=
  if mmBidPrice bestBid bestAsk i ≤ 0 then []
  else
    (if mmBidSize cfg bidSizeDraw i > 0 then
      [mmBidOrder pairSym bestBid bestAsk cfg bidSizeDraw now i]
    else []) ++
    (if mmAskSize cfg askSizeDraw i > 0 then
      [mmAskOrder pairSym bestBid bestAsk cfg askSizeDraw now i]
    else [])

/-- The full level loop: `for (let i = 0; i < depthLevels; i++)`. -/
def mmLadder (pairSym : String) (bestBid bestAsk : ℚ) (cfg : MakerCfg)
    (bidSizeDraw askSizeDraw : ℕ → ℚ) (now : ℤ) : List Order :=
  (List.range cfg.depthLevels).flatMap
    (mmLevel pairSym bestBid bestAsk cfg bidSizeDraw askSizeDraw now)

/-- Order generation of one `MarketMakerBot.run` cycle (after a valid ticker):
`none` when the crossed book cannot be resolved (skip), otherwise the ladder
built from the resolved best bid/ask. -/
def mmGenerateOrders (pairSym : String) (tickerBid tickerAsk : ℚ) (cfg : MakerCfg)
    (volEstimate : ℚ) (bidSizeDraw askSizeDraw : ℕ → ℚ) (now : ℤ) : Option (List Order) :=
  match mmResolveCross (mmTargets tickerBid tickerAsk cfg volEstimate).1
      (mmTargets tickerBid tickerAsk cfg volEstimate).2 with
  | none => none
  | some ba => some (mmLadder pairSym ba.1 ba.2 cfg bidSizeDraw askSizeDraw now)

theorem mmResolveCross_lt (bid ask : ℚ) (ba : ℚ × ℚ)
    (h : mmResolveCross bid ask = some ba) : ba.1 < ba.2 := by
  unfold mmResolveCross at h
  by_cases h1 : bid ≥ ask
  · rw [if_pos h1] at h
    by_cases h2 : bid * (9999 / 10000) ≥ ask * (10001 / 10000)
    · rw [if_pos h2] at h; exact Option.noConfusion h
    · rw [if_neg h2] at h
      cases h
      exact not_le.1 h2
  · rw [if_neg h1] at h
    cases h
    exact not_le.1 h1

theorem roundTo_mono (dp : ℕ) {x y : ℚ} (h : x ≤ y) :
    roundToDecimalPlaces x dp ≤ roundToDecimalPlaces y dp := by
  unfold roundToDecimalPlaces
  have hf : (0 : ℚ) < 10 ^ dp := by positivity
  rw [div_le_div_iff_of_pos_right hf, jsRound_eq_floor, jsRound_eq_floor]
  exact_mod_cast Int.floor_le_floor
    (add_le_add_right (mul_le_mul_of_nonneg_right h (le_of_lt hf)) (1 / 2))

theorem roundTo_nonpos (dp : ℕ) {x : ℚ} (h : x ≤ 0) : roundToDecimalPlaces x dp ≤ 0 := by
  unfold roundToDecimalPlaces
  have hf : (0 : ℚ) < 10 ^ dp := by positivity
  apply div_nonpos_of_nonpos_of_nonneg ?_ (le_of_lt hf)
  rw [jsRound_eq_floor]
  have h1 : x * 10 ^ dp + 1 / 2 ≤ 1 / 2 := by
    have : x * 10 ^ dp ≤ 0 := mul_nonpos_of_nonpos_of_nonneg h (le_of_lt hf)
    linarith
  have h2 : (⌊x * 10 ^ dp + 1 / 2⌋ : ℤ) ≤ ⌊(1 : ℚ) / 2⌋ := Int.floor_le_floor h1
  have h3 : (⌊(1 : ℚ) / 2⌋ : ℤ) = 0 := by norm_num
  exact_mod_cast le_trans h2 (le_of_eq h3)

theorem roundTo_pos_arg {dp : ℕ} {x : ℚ} (h : 0 < roundToDecimalPlaces x dp) : 0 < x := by
  by_contra hx
  exact absurd h (not_lt.2 (roundTo_nonpos dp (not_lt.1 hx)))

theorem mmLevelFactor_nonneg (i : ℕ) : 0 ≤ mmLevelFactor i := by
  unfold mmLevelFactor
  positivity

theorem mm_offset_nonneg {bestBid bestAsk : ℚ} (h : bestBid < bestAsk) (i : ℕ) :
    0 ≤ (i : ℚ) * ((bestAsk - bestBid) / 2) * mmLevelFactor i := by
  apply mul_nonneg
  · apply mul_nonneg
    · exact Nat.cast_nonneg i
    · have : (0 : ℚ) ≤ bestAsk - bestBid := by linarith
      linarith
  · exact mmLevelFactor_nonneg i

theorem mmBidPrice_le_mmAskPrice {bestBid bestAsk : ℚ} (h : bestBid < bestAsk) (i : ℕ) :
    mmBidPrice bestBid bestAsk i ≤ mmAskPrice bestBid bestAsk i := by
  unfold mmBidPrice mmAskPrice
  apply roundTo_mono
  have := mm_offset_nonneg h i
  linarith

theorem mmLevel_mem_charn (pairSym : String) (bestBid bestAsk : ℚ) (cfg : MakerCfg)
    (bidSizeDraw askSizeDraw : ℕ → ℚ) (now : ℤ) (i : ℕ) (o : Order)
    (ho : o ∈ mmLevel pairSym bestBid bestAsk cfg bidSizeDraw askSizeDraw now i) :
    0 < mmBidPrice bestBid bestAsk i ∧
      ((o = mmBidOrder pairSym bestBid bestAsk cfg bidSizeDraw now i ∧
          0 < mmBidSize cfg bidSizeDraw i) ∨
        (o = mmAskOrder pairSym bestBid bestAsk cfg askSizeDraw now i ∧
          0 < mmAskSize cfg askSizeDraw i)) := by
  unfold mmLevel at ho
  by_cases hbp : mmBidPrice bestBid bestAsk i ≤ 0
  · rw [if_pos hbp] at ho
    exact absurd ho (List.not_mem_nil o)
  · rw [if_neg hbp] at ho
    refine ⟨not_le.1 hbp, ?_⟩
    rcases List.mem_append.1 ho with hb | ha
    · by_cases hbs : mmBidSize cfg bidSizeDraw i > 0
      · rw [if_pos hbs] at hb
        rcases List.mem_singleton.1 hb with rfl
        exact Or.inl ⟨rfl, hbs⟩
      · rw [if_neg hbs] at hb
        exact absurd hb (List.not_mem_nil o)
    · by_cases has : mmAskSize cfg askSizeDraw i > 0
      · rw [if_pos has] at ha
        rcases List.mem_singleton.1 ha with rfl
        exact Or.inr ⟨rfl, has⟩
      · rw [if_neg has] at ha
        exact absurd ha (List.not_mem_nil o)

theorem mmLadder_mem (pairSym : String) (bestBid bestAsk : ℚ) (cfg : MakerCfg)
    (bidSizeDraw askSizeDraw : ℕ → ℚ) (now : ℤ) (o : Order) :
    o ∈ mmLadder pairSym bestBid bestAsk cfg bidSizeDraw askSizeDraw now ↔
      ∃ i, i < cfg.depthLevels ∧
        o ∈ mmLevel pairSym bestBid bestAsk cfg bidSizeDraw askSizeDraw now i := by
  unfold mmLadder
  rw [List.mem_flatMap]
  constructor
  · rintro ⟨i, hi, ho⟩
    exact ⟨i, List.mem_range.1 hi, ho⟩
  · rintro ⟨i, hi, ho⟩
    exact ⟨i, List.mem_range.2 hi, ho⟩

/-- C4 (amended): an unresolved crossed book generates no orders at all, and
whenever a ladder is emitted, at every level the (rounded) bid price is at
most the paired (rounded) ask price.  (Strict inequality fails: the two
5-decimal roundings can coincide, see the counterexample.) -/
theorem mm_ladder_not_crossed :
    (∀ (pairSym : String) (tickerBid tickerAsk : ℚ) (cfg : MakerCfg) (volEstimate : ℚ)
        (bidSizeDraw askSizeDraw : ℕ → ℚ) (now : ℤ),
      (mmTargets tickerBid tickerAsk cfg volEstimate).1 ≥
          (mmTargets tickerBid tickerAsk cfg volEstimate).2 →
      (mmTargets tickerBid tickerAsk cfg volEstimate).1 * (9999 / 10000) ≥
          (mmTargets tickerBid tickerAsk cfg volEstimate).2 * (10001 / 10000) →
      mmGenerateOrders pairSym tickerBid tickerAsk cfg volEstimate bidSizeDraw askSizeDraw now
        = none) ∧
    (∀ (pairSym : String) (tickerBid tickerAsk : ℚ) (cfg : MakerCfg) (volEstimate : ℚ)
        (bidSizeDraw askSizeDraw : ℕ → ℚ) (now : ℤ) (L : List Order),
      mmGenerateOrders pairSym tickerBid tickerAsk cfg volEstimate bidSizeDraw askSizeDraw now
          = some L →
      ∀ b ∈ L, ∀ a ∈ L, b.side = OrderSide.bid → a.side = OrderSide.ask →
        b.level = a.level → b.price.getD 0 ≤ a.price.getD 0) := by
  constructor
  · intro pairSym tickerBid tickerAsk cfg volEstimate bd ad now h1 h2
    unfold mmGenerateOrders mmResolveCross
    rw [if_pos h1, if_pos h2]
  · intro pairSym tickerBid tickerAsk cfg volEstimate bd ad now L hL b hb a ha hbs has hlv
    unfold mmGenerateOrders at hL
    cases hres : mmResolveCross (mmTargets tickerBid tickerAsk cfg volEstimate).1
        (mmTargets tickerBid tickerAsk cfg volEstimate).2 with
    | none => rw [hres] at hL; exact Option.noConfusion hL
    | some ba =>
      rw [hres] at hL
      cases hL
      have hlt := mmResolveCross_lt _ _ ba hres
      obtain ⟨i, hi, hbi⟩ := (mmLadder_mem pairSym ba.1 ba.2 cfg bd ad now b).1 hb
      obtain ⟨j, hj, haj⟩ := (mmLadder_mem pairSym ba.1 ba.2 cfg bd ad now a).1 ha
      obtain ⟨-, hbcase⟩ := mmLevel_mem_charn pairSym ba.1 ba.2 cfg bd ad now i b hbi
      obtain ⟨-, hacase⟩ := mmLevel_mem_charn pairSym ba.1 ba.2 cfg bd ad now j a haj
      rcases hbcase with ⟨rfl, -⟩ | ⟨rfl, -⟩
      · rcases hacase with ⟨rfl, -⟩ | ⟨rfl, -⟩
        · exact absurd has (by simp [mmBidOrder])
        · have hij : i = j := by
            simpa [mmBidOrder, mmAskOrder] using hlv
          subst hij
          simpa [mmBidOrder, mmAskOrder] using mmBidPrice_le_mmAskPrice hlt i
      · exact absurd hbs (by simp [mmAskOrder])

/-- Inputs producing an emitted ladder whose level-1 bid and ask prices round
to the SAME value: ticker bid = ask = 1, base spread `1e-9`, volatility
multiplier 0. -/
def exCfgTight : MakerCfg := ⟨1 / 1000000000, 0, 1, 1 / 10, 0⟩

def exZeroDraw : ℕ → ℚ := fun _ => 0

/-- C4 counterexample: the emitted ladder contains a level-1 bid and a level-1
ask with the SAME rounded price (both 1), refuting the strict
"bid price < paired ask price" for rounded prices. -/
theorem mm_ladder_equal_rounded_cex :
    mmGenerateOrders "BTC-USDB" 1 1 exCfgTight (1 / 100) exZeroDraw exZeroDraw 0
        = some [mmBidOrder "BTC-USDB" (1 - 1 / 2000000000) (1 + 1 / 2000000000) exCfgTight
            exZeroDraw 0 0,
          mmAskOrder "BTC-USDB" (1 - 1 / 2000000000) (1 + 1 / 2000000000) exCfgTight
            exZeroDraw 0 0] ∧
    (mmBidOrder "BTC-USDB" (1 - 1 / 2000000000) (1 + 1 / 2000000000) exCfgTight
        exZeroDraw 0 0).price = some 1 ∧
    (mmAskOrder "BTC-USDB" (1 - 1 / 2000000000) (1 + 1 / 2000000000) exCfgTight
        exZeroDraw 0 0).price = some 1 :=
  of_decide_eq_true (by with_unfolding_all rfl)

theorem mm_ladder_not_crossed_witness :
    mmGenerateOrders "BTC-USDB" (-100) (-100) exCfgTight (1 / 100) exZeroDraw exZeroDraw 0
      = none :=
  mm_ladder_not_crossed.1 "BTC-USDB" (-100) (-100) exCfgTight (1 / 100) exZeroDraw exZeroDraw 0
    (of_decide_eq_true (by with_unfolding_all rfl))
    (of_decide_eq_true (by with_unfolding_all rfl))

/-- C5 (amended): discarding is NOT per quote.  A non-positive (rounded) bid
price at level i discards the whole level — the level's ask quote included
(`continue`); when the bid price is positive, each quote is discarded exactly
when its own size is non-positive; the ask price is never checked, but every
emitted ask has a positive price anyway (it rounds at least as high as the
level's positive bid price). -/
theorem mm_quote_discard_rule (pairSym : String) (tickerBid tickerAsk : ℚ) (cfg : MakerCfg)
    (volEstimate : ℚ) (bidSizeDraw askSizeDraw : ℕ → ℚ) (now : ℤ) (L : List Order)
    (hL : mmGenerateOrders pairSym tickerBid tickerAsk cfg volEstimate bidSizeDraw askSizeDraw
        now = some L) :
    ∃ bestBid bestAsk,
      mmResolveCross (mmTargets tickerBid tickerAsk cfg volEstimate).1
          (mmTargets tickerBid tickerAsk cfg volEstimate).2 = some (bestBid, bestAsk) ∧
      (∀ i, i < cfg.depthLevels →
        (mmBidPrice bestBid bestAsk i ≤ 0 → ∀ o ∈ L, o.level ≠ some (i + 1)) ∧
        (0 < mmBidPrice bestBid bestAsk i →
          ((mmBidOrder pairSym bestBid bestAsk cfg bidSizeDraw now i ∈ L) ↔
            0 < mmBidSize cfg bidSizeDraw i) ∧
          ((mmAskOrder pairSym bestBid bestAsk cfg askSizeDraw now i ∈ L) ↔
            0 < mmAskSize cfg askSizeDraw i))) ∧
      ∀ o ∈ L, o.side = OrderSide.ask → 0 < o.price.getD 0 := by
  unfold mmGenerateOrders at hL
  cases hres : mmResolveCross (mmTargets tickerBid tickerAsk cfg volEstimate).1
      (mmTargets tickerBid tickerAsk cfg volEstimate).2 with
  | none => rw [hres] at hL; exact Option.noConfusion hL
  | some ba =>
    rw [hres] at hL
    cases hL
    have hlt := mmResolveCross_lt _ _ ba hres
    obtain ⟨bb, aa⟩ := ba
    refine ⟨bb, aa, rfl, ?_, ?_⟩

    · intro i hi
      constructor
      · intro hbp o ho hlv
        obtain ⟨j, hj, hoj⟩ := (mmLadder_mem pairSym bb aa cfg bidSizeDraw askSizeDraw
          now o).1 ho
        obtain ⟨hjp, hcase⟩ := mmLevel_mem_charn pairSym bb aa cfg bidSizeDraw askSizeDraw
          now j o hoj
        have hij : j = i := by
          rcases hcase with ⟨rfl, -⟩ | ⟨rfl, -⟩ <;> simpa [mmBidOrder, mmAskOrder] using hlv
        subst hij
        exact absurd hjp (not_lt.2 hbp)
      · intro hbp
        constructor
        · constructor
          · intro hmem
            obtain ⟨j, hj, hoj⟩ := (mmLadder_mem pairSym bb aa cfg bidSizeDraw askSizeDraw
              now _).1 hmem
            obtain ⟨hjp, hcase⟩ := mmLevel_mem_charn pairSym bb aa cfg bidSizeDraw
              askSizeDraw now j _ hoj
            rcases hcase with ⟨heq, hsz⟩ | ⟨heq, -⟩
            · have hij : i = j := by
                have hlev := congrArg Order.level heq
                simp only [mmBidOrder, Option.some.injEq] at hlev
                omega
              subst hij
              exact hsz
            · exact absurd (congrArg Order.side heq) (by simp [mmBidOrder, mmAskOrder])
          · intro hsz
            refine (mmLadder_mem pairSym bb aa cfg bidSizeDraw askSizeDraw now _).2
              ⟨i, hi, ?_⟩
            unfold mmLevel
            rw [if_neg (not_le.2 hbp), if_pos hsz]
            exact List.mem_append_left _ (List.mem_singleton.2 rfl)
        · constructor
          · intro hmem
            obtain ⟨j, hj, hoj⟩ := (mmLadder_mem pairSym bb aa cfg bidSizeDraw askSizeDraw
              now _).1 hmem
            obtain ⟨hjp, hcase⟩ := mmLevel_mem_charn pairSym bb aa cfg bidSizeDraw
              askSizeDraw now j _ hoj
            rcases hcase with ⟨heq, -⟩ | ⟨heq, hsz⟩
            · exact absurd (congrArg Order.side heq) (by simp [mmBidOrder, mmAskOrder])
            · have hij : i = j := by
                have hlev := congrArg Order.level heq
                simp only [mmAskOrder, Option.some.injEq] at hlev
                omega
              subst hij
              exact hsz
          · intro hsz
            refine (mmLadder_mem pairSym bb aa cfg bidSizeDraw askSizeDraw now _).2
              ⟨i, hi, ?_⟩
            unfold mmLevel
            rw [if_neg (not_le.2 hbp), if_pos hsz]
            exact List.mem_append_right _ (List.mem_singleton.2 rfl)
    · intro o ho hside
      obtain ⟨j, hj, hoj⟩ := (mmLadder_mem pairSym bb aa cfg bidSizeDraw askSizeDraw
        now o).1 ho
      obtain ⟨hjp, hcase⟩ := mmLevel_mem_charn pairSym bb aa cfg bidSizeDraw askSizeDraw
        now j o hoj
      rcases hcase with ⟨rfl, -⟩ | ⟨rfl, -⟩
      · exact absurd hside (by simp [mmBidOrder])
      · have : mmBidPrice bb aa j ≤ mmAskPrice bb aa j :=
          mmBidPrice_le_mmAskPrice hlt j
        simp only [mmAskOrder, Option.getD_some]
        exact lt_of_lt_of_le hjp this

/-- Base spread 2 (200%) with multiplier 1: the level-0 bid price is negative
while the ask price and both sizes are positive. -/
def exCfgWide : MakerCfg := ⟨2, 1, 1, 1 / 10, 0⟩

/-- C5 counterexample: level 0 has a positive-price, positive-size ask quote
(price 201, size 0.1), but because the level's BID price is ≤ 0 the `continue`
discards the whole level and the emitted ladder is empty — discarding is per
LEVEL on a bad bid price, not per quote, and would-be asks are suppressed. -/
theorem mm_quote_discard_cex :
    mmGenerateOrders "BTC-USDB" 100 100 exCfgWide (1 / 100) exZeroDraw exZeroDraw 0
        = some [] ∧
    mmResolveCross (mmTargets 100 100 exCfgWide (1 / 100)).1
        (mmTargets 100 100 exCfgWide (1 / 100)).2 = some (-1, 201) ∧
    mmBidPrice (-1) 201 0 ≤ 0 ∧
    0 < mmAskPrice (-1) 201 0 ∧
    0 < mmAskSize exCfgWide exZeroDraw 0 :=
  of_decide_eq_true (by with_unfolding_all rfl)

theorem mm_quote_discard_rule_witness :
    ∃ bestBid bestAsk,
      mmResolveCross (mmTargets 1 1 exCfgTight (1 / 100)).1
          (mmTargets 1 1 exCfgTight (1 / 100)).2 = some (bestBid, bestAsk) ∧
      (∀ i, i < exCfgTight.depthLevels →
        (mmBidPrice bestBid bestAsk i ≤ 0 →
          ∀ o ∈ [mmBidOrder "BTC-USDB" (1 - 1 / 2000000000) (1 + 1 / 2000000000) exCfgTight
              exZeroDraw 0 0,
            mmAskOrder "BTC-USDB" (1 - 1 / 2000000000) (1 + 1 / 2000000000) exCfgTight
              exZeroDraw 0 0], o.level ≠ some (i + 1)) ∧
        (0 < mmBidPrice bestBid bestAsk i →
          ((mmBidOrder "BTC-USDB" bestBid bestAsk exCfgTight exZeroDraw 0 i ∈
              [mmBidOrder "BTC-USDB" (1 - 1 / 2000000000) (1 + 1 / 2000000000) exCfgTight
                exZeroDraw 0 0,
              mmAskOrder "BTC-USDB" (1 - 1 / 2000000000) (1 + 1 / 2000000000) exCfgTight
                exZeroDraw 0 0]) ↔
            0 < mmBidSize exCfgTight exZeroDraw i) ∧
          ((mmAskOrder "BTC-USDB" bestBid bestAsk exCfgTight exZeroDraw 0 i ∈
              [mmBidOrder "BTC-USDB" (1 - 1 / 2000000000) (1 + 1 / 2000000000) exCfgTight
                exZeroDraw 0 0,
              mmAskOrder "BTC-USDB" (1 - 1 / 2000000000) (1 + 1 / 2000000000) exCfgTight
                exZeroDraw 0 0]) ↔
            0 < mmAskSize exCfgTight exZeroDraw i))) ∧
      ∀ o ∈ [mmBidOrder "BTC-USDB" (1 - 1 / 2000000000) (1 + 1 / 2000000000) exCfgTight
          exZeroDraw 0 0,
        mmAskOrder "BTC-USDB" (1 - 1 / 2000000000) (1 + 1 / 2000000000) exCfgTight
          exZeroDraw 0 0], o.side = OrderSide.ask → 0 < o.price.getD 0 :=
  mm_quote_discard_rule "BTC-USDB" 1 1 exCfgTight (1 / 100) exZeroDraw exZeroDraw 0
    [mmBidOrder "BTC-USDB" (1 - 1 / 2000000000) (1 + 1 / 2000000000) exCfgTight exZeroDraw 0 0,
      mmAskOrder "BTC-USDB" (1 - 1 / 2000000000) (1 + 1 / 2000000000) exCfgTight exZeroDraw 0 0]
    (of_decide_eq_true (by with_unfolding_all rfl))

/-! ## Lifecycle: stop ordering, scheduler, fleet startup

`BaseBot` keeps `isRunning` and `timeoutId`; timers, in-flight cycles and
stop calls interleave, so they are modelled as events against that state. -/

inductive ClientCall
  | cancelOrders (ids : List String)
  | submitOrder
deriving DecidableEq, Repr

structure MMBotState where
  isRunning : Bool
  timeoutPending : Bool
  activeMakerOrders : List (String × Order)
deriving DecidableEq, Repr

structure MTBotState where
  isRunning : Bool
  timeoutPending : Bool
deriving DecidableEq, Repr

/-- `MarketMakerBot.stop` (lines 42-65): clears `isRunning` and any pending
timer, logs a SIMULATED cancel for each resting order (the source comments
"Simulate canceling all orders on stop" / "In real implementation, send
cancel requests here") and empties the map.  It issues NO call on the
order-execution client.  Returns (new state, client calls issued). -/
def mmStop (_ : MMBotState) : MMBotState × List ClientCall :=
  (⟨false, false, []⟩, [])

/-- `MarketTakerBot.stop` (lines 44-51): clears the flag and any pending
timer; no client calls. -/
def mtStop (_ : MTBotState) : MTBotState × List ClientCall :=
  (⟨false, false⟩, [])

inductive StopEvent
  | takerStopped
  | makerStopped
deriving DecidableEq, Repr

structure PairTraderState where
  isRunning : Bool
  mm : MMBotState
  mt : MTBotState
deriving DecidableEq, Repr

/-- `PairTrader.stop` (src/unnamed/part_000 lines 63-72): early-return when
not running; otherwise `await this.mtBot.stop(); await this.mmBot.stop()` —
taker first, then maker.  Returns (state, agent-stop order, client calls). -/
def pairStop (s : PairTraderState) : PairTraderState × List StopEvent × List ClientCall :=
  if s.isRunning = false then (s, [], [])
  else
    (⟨false, (mmStop s.mm).1, (mtStop s.mt).1⟩,
      [StopEvent.takerStopped, StopEvent.makerStopped],
      (mtStop s.mt).2 ++ (mmStop s.mm).2)

def exMMState : MMBotState := ⟨true, true, [("a1", exResting)]⟩

def exPairState : PairTraderState := ⟨true, exMMState, ⟨true, true⟩⟩

/-- C6 counterexample: the quoting agent's resting map is non-empty, yet a
pair stop issues zero order-execution client calls — `MarketMakerBot.stop`
only SIMULATES the cancels (log + map clear), refuting "it issues cancel
operations via the order-execution client for every order in its resting
map". -/
theorem pair_stop_no_client_cancel_cex :
    exPairState.mm.activeMakerOrders ≠ [] ∧ (pairStop exPairState).2.2 = [] :=
  ⟨of_decide_eq_true (by with_unfolding_all rfl), rfl⟩

/-- C6 (amended): stopping a running pair stops the activity (taker) agent
before the quoting (maker) agent, the quoting agent's stop empties its
resting-order map and clears its timer — but the cancellation is only
simulated (logged): no cancel operation is issued on the order-execution
client. -/
theorem pair_stop_order_and_clear (s : PairTraderState) (hrun : s.isRunning = true) :
    pairStop s =
      (⟨false, ⟨false, false, []⟩, ⟨false, false⟩⟩,
        [StopEvent.takerStopped, StopEvent.makerStopped], []) := by
  unfold pairStop mmStop mtStop
  rw [hrun]
  simp

theorem pair_stop_order_and_clear_witness :
    pairStop exPairState =
      (⟨false, ⟨false, false, []⟩, ⟨false, false⟩⟩,
        [StopEvent.takerStopped, StopEvent.makerStopped], []) :=
  pair_stop_order_and_clear exPairState rfl

/-- The scheduling state of either bot: `isRunning` and whether a `setTimeout`
handle is pending (`timeoutId !== null`). -/
structure BotSched where
  isRunning : Bool
  timeoutPending : Bool
deriving DecidableEq, Repr

/-- `stop()` of either bot:
`isRunning = false; if (timeoutId) { clearTimeout(timeoutId); timeoutId = null }`.
Returns the new state and whether `clearTimeout` was called. -/
def botStop (s : BotSched) : BotSched × Bool :=
  (⟨false, false⟩, s.timeoutPending)

/-- `BaseBot.scheduleNextRun` (lines 49-59): `if (!this.isRunning) return;`
then (re)arm the timer. -/
def scheduleNextRun (s : BotSched) : BotSched :=
  if s.isRunning = false then s else ⟨s.isRunning, true⟩

inductive SchedEvent
  | timerFire
  | cycleEnd
  | stopCall
deriving DecidableEq, Repr

/-- One scheduling event.  `timerFire`: an armed timeout fires and its
callback runs `if (this.isRunning) await this.run()` — the Bool records
whether a run cycle began.  `cycleEnd`: an in-flight `run()` completes and
its `finally` calls `scheduleNextRun`.  `stopCall`: `stop()` is invoked. -/
def schedStep (s : BotSched) : SchedEvent → BotSched × Bool
  | SchedEvent.timerFire =>
    if s.timeoutPending = false then (s, false)
    else if s.isRunning then (⟨s.isRunning, false⟩, true)
    else (⟨s.isRunning, false⟩, false)
  | SchedEvent.cycleEnd => (scheduleNextRun s, false)
  | SchedEvent.stopCall => ((botStop s).1, false)

/-- Number of run cycles that begin along an event trace. -/
def runsCount : BotSched → List SchedEvent → ℕ
  | _, [] => 0
  | s, e :: evs =>
    (if (schedStep s e).2 then 1 else 0) + runsCount (schedStep s e).1 evs

theorem schedStep_stopped (e : SchedEvent) :
    schedStep ⟨false, false⟩ e = (⟨false, false⟩, false) := by
  cases e <;> rfl

/-- C7: after `stop()` no further run cycle ever fires along ANY interleaving
of timer fires, in-flight cycle completions and further stop calls; stop
clears the pending timer and the running flag; a second stop changes nothing
and performs no second `clearTimeout`; an in-flight cycle completing after
stop does not reschedule. -/
theorem bot_stop_no_further_runs :
    (∀ (s : BotSched) (evs : List SchedEvent), runsCount (botStop s).1 evs = 0) ∧
    (∀ s : BotSched,
      (botStop s).1.timeoutPending = false ∧ (botStop s).1.isRunning = false) ∧
    (∀ s : BotSched, botStop (botStop s).1 = ((botStop s).1, false)) ∧
    (∀ s : BotSched, scheduleNextRun (botStop s).1 = (botStop s).1) := by
  have hstop : ∀ (evs : List SchedEvent), runsCount ⟨false, false⟩ evs = 0 := by
    intro evs
    induction evs with
    | nil => rfl
    | cons e rest ih =>
      simp [runsCount, schedStep_stopped e, ih]
  exact ⟨fun s evs => hstop evs, fun s => ⟨rfl, rfl⟩, fun s => rfl, fun s => rfl⟩

inductive MainOutcome
  | exited (code : ℕ)
  | runningForever
deriving DecidableEq, Repr

/-- `BotManager.initialize` (src/unnamed/part_001 lines 19-43): when the
market-data provider's `initialize()` throws, the error is caught and logged
and `false` is returned — no trader was created (the throw precedes the
creation loop).  Otherwise one PairTrader per configured pair is created and
`true` is returned. -/
def bmInit (providerInitThrows : Bool) (pairs : List String) : Bool × List String :=
  if providerInitThrows then (false, [])
  else (true, pairs)

/-- `BotManager.start` (lines 45-65): on init failure it logs
"Cannot start Bot Manager due to initialization failure" and RETURNS NORMALLY
without starting any trader; otherwise all traders are started concurrently
(`Promise.all`) and a rejected `trader.start()` makes `start()` throw.
`none` models a thrown error, `some l` a normal return having started `l`.
(Which traders complete starting when a sibling's start rejects is beyond
this claim; the failure-free and init-failure paths are exact.) -/
def bmStart (providerInitThrows : Bool) (pairs : List String)
    (pairStartFails : String → Bool) : Option (List String) :=
  if (bmInit providerInitThrows pairs).1 = false then some []
  else if (bmInit providerInitThrows pairs).2.any pairStartFails then none
  else some (bmInit providerInitThrows pairs).2

/-- `main` (src/index.ts lines 40-51): `await botManager.start()`; a thrown
error exits the process with code 1; a normal return logs
"Trading bots are running" and awaits forever. -/
def mainOutcome (providerInitThrows : Bool) (pairs : List String)
    (pairStartFails : String → Bool) : MainOutcome × List String :=
  match bmStart providerInitThrows pairs pairStartFails with
  | none => (MainOutcome.exited 1, [])
  | some started => (MainOutcome.runningForever, started)

/-- C8 counterexample: when the market-data provider's initialize throws, no
pair trader is started — but the process does NOT terminate: start() swallows
the failure and main keeps running forever, so there is no non-zero exit. -/
theorem fleet_init_failure_cex :
    (mainOutcome true ["BTC-USDB", "BTC-EURB"] (fun _ => false)).2 = [] ∧
    (mainOutcome true ["BTC-USDB", "BTC-EURB"] (fun _ => false)).1
        = MainOutcome.runningForever ∧
    ∀ code, (mainOutcome true ["BTC-USDB", "BTC-EURB"] (fun _ => false)).1
        ≠ MainOutcome.exited code :=
  ⟨rfl, rfl, fun _ h => MainOutcome.noConfusion h⟩

/-- C8 (amended): a throwing market-data initialize aborts fleet startup (no
pair trader is started), but the failure is only logged: `start()` returns
normally, `main` does not exit, and the process idles forever instead of
terminating with a non-zero code. -/
theorem fleet_init_failure_no_exit (pairs : List String) (pairStartFails : String → Bool) :
    mainOutcome true pairs pairStartFails = (MainOutcome.runningForever, []) := by
  unfold mainOutcome bmStart bmInit
  simp

/-! ## Taker order synthesis: `MarketTakerBot.generateOrderBasedOnStrategy`
(src/bots/MarketTakerBot.ts lines 158-307), with every `Math.random()` call
passed in explicitly. -/

/-- JS `Math.min` / `Math.max` through explicit `if`s. -/
def jsMin (x y : ℚ) : ℚ := if y < x then y else x

def jsMax (x y : ℚ) : ℚ := if x < y then y else x

structure TakerCfg where
  marketOrderProbability : ℚ
  baseOrderSize : ℚ
  sizeRandomizationFactor : ℚ
  meanReversionThreshold : ℚ
deriving Repr

structure TickerQ where
  bid : ℚ
  ask : ℚ
  last : ℚ
deriving Repr

inductive Strategy
  | random
  | momentum
  | meanReversion
  | passiveLimit
deriving DecidableEq, Repr

/-- One draw per `Math.random()` call site. -/
structure TakerDraws where
  marketDraw : ℚ
  sizeVarDraw : ℚ
  momentumCoin : ℚ
  passiveCoin : ℚ
  passiveEpsDraw : ℚ
  randomCoin : ℚ
  priceDraw : ℚ
deriving Repr

/-- The passiveLimit pricing (lines 213-237): a price a few basis points
inside the touch, then the four sequential clamps of lines 231-236. -/
def takerPassivePrice (side : OrderSide) (ticker : TickerQ) (dr : TakerDraws) : ℚ :=
  let eps := randomArbitrary (1 / 10000) (5 / 10000) dr.passiveEpsDraw
  let price0 := if side = OrderSide.bid then
      roundToDecimalPlaces (ticker.bid * (1 + eps)) 5
    else roundToDecimalPlaces (ticker.ask * (1 - eps)) 5
  let price1 := if side = OrderSide.bid ∧ price0 > ticker.ask then ticker.ask else price0
  let price2 := if side = OrderSide.ask ∧ price1 < ticker.bid then ticker.bid else price1
  let price3 := if price2 ≤ ticker.bid ∧ side = OrderSide.ask then ticker.bid else price2
  if price3 ≥ ticker.ask ∧ side = OrderSide.bid then ticker.ask else price3

/-- Pricing for non-passive limit orders (lines 248-270): a rounded draw
toward the mid, min/max clamps, and the final crossing checks of
lines 268-269. -/
def takerLimitPrice (side : OrderSide) (ticker : TickerQ) (dr : TakerDraws) : ℚ :=
  let midPrice := (ticker.bid + ticker.ask) / 2
  if side = OrderSide.bid then
    let p0 := roundToDecimalPlaces
      (randomArbitrary (ticker.bid * (9995 / 10000)) midPrice dr.priceDraw) 5
    let p1 := jsMin p0 (ticker.ask * (9999 / 10000))
    let p2 := jsMax p1 (ticker.bid * (99 / 100))
    if p2 ≥ ticker.ask then ticker.ask else p2
  else
    let p0 := roundToDecimalPlaces
      (randomArbitrary midPrice (ticker.ask * (10005 / 10000)) dr.priceDraw) 5
    let p1 := jsMax p0 (ticker.bid * (10001 / 10000))
    let p2 := jsMin p1 (ticker.ask * (101 / 100))
    if p2 ≤ ticker.bid then ticker.bid else p2

/-- The strategy switch (lines 181-243): side, strategy-set price (passive
only) and order kind.  `none` is the meanReversion "no signal" null return;
the other strategies always produce a side (momentum falls back to a coin
flip on a flat trend), so the later `if (!side) return null` safety check is
unreachable for them. -/
def takerSwitch (strategy : Strategy) (ticker : TickerQ) (recentPrices : List ℚ)
    (cfg : TakerCfg) (dr : TakerDraws) : Option (OrderSide × Option ℚ × OrderType) :=
  let isMarketOrder := dr.marketDraw < cfg.marketOrderProbability
  let defaultType := if isMarketOrder then OrderType.market else OrderType.limit
  match strategy with
  | Strategy.momentum =>
    let side0 : Option OrderSide :=
      if 2 ≤ recentPrices.length then
        let trend := recentPrices.getD (recentPrices.length - 1) 0 - recentPrices.getD 0 0
        if trend > 0 then some OrderSide.bid
        else if trend < 0 then some OrderSide.ask
        else none
      else none
    let side := match side0 with
      | some sd => sd
      | none => if dr.momentumCoin < 1 / 2 then OrderSide.bid else OrderSide.ask
    some (side, none, defaultType)
  | Strategy.meanReversion =>
    if 1 < recentPrices.length then
      let avgPrice := recentPrices.foldl (· + ·) 0 / (recentPrices.length : ℚ)
      let deviation := (ticker.last - avgPrice) / avgPrice
      if deviation > cfg.meanReversionThreshold then some (OrderSide.ask, none, defaultType)
      else if deviation < -cfg.meanReversionThreshold then
        some (OrderSide.bid, none, defaultType)
      else none
    else none
  | Strategy.passiveLimit =>
    let side := if dr.passiveCoin < 1 / 2 then OrderSide.bid else OrderSide.ask
    some (side, some (takerPassivePrice side ticker dr), OrderType.limit)
  | Strategy.random =>
    some (if dr.randomCoin < 1 / 2 then OrderSide.bid else OrderSide.ask, none, defaultType)

/-- The final sanity block (lines 277-297): an undefined or non-positive
limit price degrades the order to a market order; otherwise a limit bid above
the ask is clamped to the ask and a limit ask below the bid to the bid. -/
def takerFinalGuard (side : OrderSide) (ty : OrderType) (price? : Option ℚ)
    (ticker : TickerQ) : OrderType × Option ℚ :=
  if ty = OrderType.limit then
    match price? with
    | none => (OrderType.market, none)
    | some p =>
      if p ≤ 0 then (OrderType.market, none)
      else if side = OrderSide.bid ∧ p > ticker.ask then (OrderType.limit, some ticker.ask)
      else if side = OrderSide.ask ∧ p < ticker.bid then (OrderType.limit, some ticker.bid)
      else (OrderType.limit, some p)
  else (ty, price?)

/-- `generateOrderBasedOnStrategy` (lines 158-307): size randomization and
non-positive-size null, JS-truthiness ticker check, the strategy switch, the
non-passive limit pricing when no price was set, the final 5-decimal
rounding (line 273) and the final guard. -/
def generateOrderBasedOnStrategy (pairSym : String) (cfg : TakerCfg)
    (recentPrices : List ℚ) (strategy : Strategy) (ticker : TickerQ) (dr : TakerDraws)
    (now : ℤ) : Option Order :=
  let size := roundToDecimalPlaces (applyVariance cfg.baseOrderSize dr.sizeVarDraw) 8
  if size ≤ 0 then none
  else if ticker.bid = 0 ∨ ticker.ask = 0 ∨ ticker.last = 0 then none
  else
    match takerSwitch strategy ticker recentPrices cfg dr with
    | none => none
    | some sdt =>
      let priced := if sdt.2.2 = OrderType.limit ∧ sdt.2.1 = none then
          some (takerLimitPrice sdt.1 ticker dr)
        else sdt.2.1
      let rounded := priced.map (fun p => roundToDecimalPlaces p 5)
      let fin := takerFinalGuard sdt.1 sdt.2.2 rounded ticker
      some ⟨pairSym, sdt.1, fin.1, fin.2, size, now, none, none, none⟩

theorem takerPassivePrice_bid_le (ticker : TickerQ) (dr : TakerDraws) :
    takerPassivePrice OrderSide.bid ticker dr ≤ ticker.ask := by
  have hne : (OrderSide.bid = OrderSide.ask) = False := by simp
  have heq : (OrderSide.bid = OrderSide.bid) = True := by simp
  unfold takerPassivePrice
  simp only [hne, heq, false_and, and_false, true_and, and_true, if_false]
  split_ifs <;> linarith

theorem takerPassivePrice_ask_ge (ticker : TickerQ) (dr : TakerDraws) :
    ticker.bid ≤ takerPassivePrice OrderSide.ask ticker dr := by
  have hne : (OrderSide.ask = OrderSide.bid) = False := by simp
  have heq : (OrderSide.ask = OrderSide.ask) = True := by simp
  unfold takerPassivePrice
  simp only [hne, heq, false_and, and_false, true_and, and_true, if_false]
  split_ifs <;> linarith

theorem takerLimitPrice_bid_le (ticker : TickerQ) (dr : TakerDraws) :
    takerLimitPrice OrderSide.bid ticker dr ≤ ticker.ask := by
  unfold takerLimitPrice
  rw [if_pos rfl]
  simp only [jsMin, jsMax]
  split_ifs <;> linarith

theorem takerLimitPrice_ask_ge (ticker : TickerQ) (dr : TakerDraws) :
    ticker.bid ≤ takerLimitPrice OrderSide.ask ticker dr := by
  unfold takerLimitPrice
  rw [if_neg (by simp)]
  simp only [jsMin, jsMax]
  split_ifs <;> linarith

theorem takerFinalGuard_limit_spec (side : OrderSide) (ty : OrderType) (p? : Option ℚ)
    (ticker : TickerQ)
    (hbid : side = OrderSide.bid → ∀ p, p? = some p → p ≤ roundToDecimalPlaces ticker.ask 5) :
    (takerFinalGuard side ty p? ticker).1 = OrderType.limit →
    ∃ p, (takerFinalGuard side ty p? ticker).2 = some p ∧ 0 < p ∧
      (side = OrderSide.bid → p ≤ ticker.ask) ∧
      (side = OrderSide.ask → ticker.bid ≤ p) := by
  unfold takerFinalGuard
  by_cases hty : ty = OrderType.limit
  · rw [if_pos hty]
    cases p? with
    | none => intro h; exact OrderType.noConfusion h
    | some p =>
      dsimp only
      split_ifs with hp hbidc haskc
      · intro h; exact absurd h (by simp)
      · intro _
        have hple := hbid hbidc.1 p rfl
        have hpos : (0 : ℚ) < p := not_le.1 hp
        have haskpos : 0 < ticker.ask :=
          roundTo_pos_arg (lt_of_lt_of_le hpos hple)
        refine ⟨ticker.ask, rfl, haskpos, fun _ => le_refl _, fun hsa => ?_⟩
        rw [hbidc.1] at hsa
        exact OrderSide.noConfusion hsa
      · intro _
        have hpos : (0 : ℚ) < p := not_le.1 hp
        refine ⟨ticker.bid, rfl, lt_trans hpos haskc.2, fun hsb => ?_, fun _ => le_refl _⟩
        rw [haskc.1] at hsb
        exact OrderSide.noConfusion hsb
      · intro _
        have hpos : (0 : ℚ) < p := not_le.1 hp
        refine ⟨p, rfl, hpos, fun hsb => ?_, fun hsa => ?_⟩
        · by_contra hgt
          exact hbidc ⟨hsb, not_le.1 hgt⟩
        · by_contra hgt
          exact haskc ⟨hsa, not_le.1 hgt⟩
  · rw [if_neg hty]
    intro h
    exact absurd h hty

theorem takerSwitch_some_price (strategy : Strategy) (ticker : TickerQ)
    (recentPrices : List ℚ) (cfg : TakerCfg) (dr : TakerDraws) (sd : OrderSide) (p0 : ℚ)
    (ty : OrderType)
    (h : takerSwitch strategy ticker recentPrices cfg dr = some (sd, some p0, ty)) :
    p0 = takerPassivePrice sd ticker dr := by
  cases strategy with
  | random => simp [takerSwitch, Prod.mk.injEq] at h
  | momentum => simp [takerSwitch, Prod.mk.injEq] at h
  | meanReversion =>
    simp only [takerSwitch] at h
    split_ifs at h <;> simp [Prod.mk.injEq] at h
  | passiveLimit =>
    simp only [takerSwitch, Option.some.injEq, Prod.mk.injEq] at h
    rw [← h.1, ← h.2.1]

theorem takerSwitch_isSome_of_ne_mr (strategy : Strategy) (ticker : TickerQ)
    (recentPrices : List ℚ) (cfg : TakerCfg) (dr : TakerDraws)
    (h : strategy ≠ Strategy.meanReversion) :
    ∃ sdt, takerSwitch strategy ticker recentPrices cfg dr = some sdt := by
  cases strategy with
  | meanReversion => exact absurd rfl h
  | random => exact ⟨_, rfl⟩
  | momentum => exact ⟨_, rfl⟩
  | passiveLimit => exact ⟨_, rfl⟩

/-- C9: every taker order returned with kind limit carries a positive price;
an undefined or non-positive computed limit price degrades the order to a
market order instead of failing the cycle (for the non-selective strategies a
positive size and truthy ticker always yield an order); and a returned limit
bid never prices above the ticker ask while a returned limit ask never prices
below the ticker bid. -/
theorem mt_limit_order_guards :
    (∀ (pairSym : String) (cfg : TakerCfg) (recentPrices : List ℚ) (strategy : Strategy)
        (ticker : TickerQ) (dr : TakerDraws) (now : ℤ) (o : Order),
      generateOrderBasedOnStrategy pairSym cfg recentPrices strategy ticker dr now = some o →
      o.type = OrderType.limit →
      ∃ p, o.price = some p ∧ 0 < p ∧
        (o.side = OrderSide.bid → p ≤ ticker.ask) ∧
        (o.side = OrderSide.ask → ticker.bid ≤ p)) ∧
    (∀ (pairSym : String) (cfg : TakerCfg) (recentPrices : List ℚ) (strategy : Strategy)
        (ticker : TickerQ) (dr : TakerDraws) (now : ℤ),
      strategy ≠ Strategy.meanReversion →
      0 < roundToDecimalPlaces (applyVariance cfg.baseOrderSize dr.sizeVarDraw) 8 →
      ¬(ticker.bid = 0 ∨ ticker.ask = 0 ∨ ticker.last = 0) →
      ∃ o, generateOrderBasedOnStrategy pairSym cfg recentPrices strategy ticker dr now
          = some o) := by
  constructor
  · intro pairSym cfg recentPrices strategy ticker dr now o h htype
    simp only [generateOrderBasedOnStrategy] at h
    by_cases hsz : roundToDecimalPlaces (applyVariance cfg.baseOrderSize dr.sizeVarDraw) 8 ≤ 0
    · rw [if_pos hsz] at h; exact Option.noConfusion h
    by_cases htk : ticker.bid = 0 ∨ ticker.ask = 0 ∨ ticker.last = 0
    · rw [if_neg hsz, if_pos htk] at h; exact Option.noConfusion h
    rw [if_neg hsz, if_neg htk] at h
    cases hsw : takerSwitch strategy ticker recentPrices cfg dr with
    | none => rw [hsw] at h; exact Option.noConfusion h
    | some sdt =>
      rw [hsw] at h
      obtain ⟨sd, p?, ty⟩ := sdt
      dsimp only at h
      have ho : o = ⟨pairSym, sd,
          (takerFinalGuard sd ty ((if ty = OrderType.limit ∧ p? = none then
              some (takerLimitPrice sd ticker dr) else p?).map
            (fun p => roundToDecimalPlaces p 5)) ticker).1,
          (takerFinalGuard sd ty ((if ty = OrderType.limit ∧ p? = none then
              some (takerLimitPrice sd ticker dr) else p?).map
            (fun p => roundToDecimalPlaces p 5)) ticker).2,
          roundToDecimalPlaces (applyVariance cfg.baseOrderSize dr.sizeVarDraw) 8,
          now, none, none, none⟩ := (Option.some.inj h).symm
      have hbid : sd = OrderSide.bid →
          ∀ p, ((if ty = OrderType.limit ∧ p? = none then
              some (takerLimitPrice sd ticker dr) else p?).map
            (fun p => roundToDecimalPlaces p 5)) = some p →
          p ≤ roundToDecimalPlaces ticker.ask 5 := by
        intro hsd p hp
        by_cases hcond : ty = OrderType.limit ∧ p? = none
        · rw [if_pos hcond, Option.map_some'] at hp
          have := takerLimitPrice_bid_le ticker dr
          rw [← Option.some.inj hp, hsd]
          exact roundTo_mono 5 (hsd ▸ this)
        · rw [if_neg hcond] at hp
          cases hp0 : p? with
          | none => rw [hp0] at hp; exact Option.noConfusion hp
          | some p0 =>
            rw [hp0, Option.map_some'] at hp
            have hpass : p0 = takerPassivePrice sd ticker dr :=
              takerSwitch_some_price strategy ticker recentPrices cfg dr sd p0 ty
                (hp0 ▸ hsw)
            have := takerPassivePrice_bid_le ticker dr
            rw [← Option.some.inj hp, hpass, hsd]
            exact roundTo_mono 5 this
      have hfin := takerFinalGuard_limit_spec sd ty
        ((if ty = OrderType.limit ∧ p? = none then
            some (takerLimitPrice sd ticker dr) else p?).map
          (fun p => roundToDecimalPlaces p 5)) ticker hbid
      rw [ho] at htype ⊢
      obtain ⟨p, hp2, hppos, hpbid, hpask⟩ := hfin htype
      exact ⟨p, hp2, hppos, hpbid, hpask⟩
  · intro pairSym cfg recentPrices strategy ticker dr now hne hszpos htk
    obtain ⟨sdt, hsw⟩ :=
      takerSwitch_isSome_of_ne_mr strategy ticker recentPrices cfg dr hne
    unfold generateOrderBasedOnStrategy
    rw [if_neg (not_le.2 hszpos), if_neg htk, hsw]
    exact ⟨_, rfl⟩

def exTicker : TickerQ := ⟨100, 101, 100⟩

def exTakerCfg : TakerCfg := ⟨3 / 5, 1 / 50, 3 / 10, 3 / 1000⟩

def exTakerDraws : TakerDraws := ⟨1 / 2, 0, 1 / 2, 1 / 2, 1 / 2, 1 / 2, 1 / 2⟩

def exTakerOrder : Order :=
  ⟨"BTC-USDB", OrderSide.ask, OrderType.limit, some (1009697 / 10000), 1 / 50, 0,
    none, none, none⟩

set_option maxRecDepth 2000 in
theorem mt_limit_order_guards_witness :
    (∃ o, generateOrderBasedOnStrategy "BTC-USDB" exTakerCfg [] Strategy.passiveLimit exTicker
        exTakerDraws 0 = some o) ∧
    (∃ p, exTakerOrder.price = some p ∧ 0 < p ∧
      (exTakerOrder.side = OrderSide.bid → p ≤ exTicker.ask) ∧
      (exTakerOrder.side = OrderSide.ask → exTicker.bid ≤ p)) := by
  constructor
  · exact mt_limit_order_guards.2 "BTC-USDB" exTakerCfg [] Strategy.passiveLimit exTicker
      exTakerDraws 0 (fun h => Strategy.noConfusion h)
      (of_decide_eq_true (by with_unfolding_all rfl))
      (of_decide_eq_true (by with_unfolding_all rfl))
  · exact mt_limit_order_guards.1 "BTC-USDB" exTakerCfg [] Strategy.passiveLimit exTicker
      exTakerDraws 0 exTakerOrder (by with_unfolding_all rfl) rfl
